import Mathlib

/-!
e2b2api: message normalisation, parameter clamping, stream emulation.

A shallow embedding of the adaptation pipeline of `main.go` and the
properties its specification states about it.

Conventions of the embedding:
* a Go `string` is a Lean `String` where only equality and concatenation are
  used, and a list of bytes (`List Nat`, every element below 256) where the
  code slices it by byte offsets;
* a Go `map[string]interface{}` is an association list read with
  `List.lookup`;
* a value held in an `interface{}` is a value of a sum type with one
  constructor per dynamic type that can occur;
* calls to the random source and the clock are read from oracles passed as
  arguments;
* a frame of the stream is kept as the value that its JSON text denotes, so
  that a string appears as `json.Marshal` writes it.
-/

namespace E2B

/-! ## Data model -/

/-- TextContent is the typed text block `{type, text}` of the upstream format
(the field `Type` of the source is `Typ` here, `Type` being reserved). -/
structure TextContent where
  Typ : String
  Text : String
  deriving DecidableEq, Repr

/-- F64 is a `float64` value: NaN, the two infinities, or a finite number kept
as the rational it denotes.  Only comparison and `math.Min` are applied to
floats in the pipeline, and both are exact; the sign of zero is not kept. -/
inductive F64 where
  | nan : F64
  | negInf : F64
  | posInf : F64
  | fin (q : Rat) : F64
  deriving DecidableEq

/-- Dyn is a value held in an `interface{}`: what `encoding/json` decodes
(`nil`, `bool`, `float64`, `string`, `[]interface{}`, `map[string]interface{}`),
the `float64` and `int` fields the handler stores in the parameter map, and
the `[]TextContent` that `TransformMessages` stores in a message. -/
inductive Dyn where
  | null : Dyn
  | bool (b : Bool) : Dyn
  | float64 (f : F64) : Dyn
  | int (i : Int) : Dyn
  | str (s : String) : Dyn
  | arr (items : List Dyn) : Dyn
  | obj (fields : List (String × Dyn)) : Dyn
  | blocks (bs : List TextContent) : Dyn

/-- ChatMessage is one turn: a role and a dynamically typed content. -/
structure ChatMessage where
  Role : String
  Content : Dyn

/-! ## Content extraction -/

/-- The Go library function `strings.Join`. -/
def stringsJoin : List String → String → String
  | [], _ => ""
  | [a], _ => a
  | a :: b :: rest, sep => a ++ sep ++ stringsJoin (b :: rest) sep

/-- One iteration of the loop over the items of a `[]interface{}` content in
`ProcessMessageContent`: the item's text is appended to `textParts` when the
item is a map whose `"type"` entry is the string `"text"` and whose `"text"`
entry is a string. -/
def collectTextPart (textParts : List String) (item : Dyn) : List String :=
  match item with
  | .obj itemMap =>
    match itemMap.lookup "type" with
    | some (.str t) =>
      if t = "text" then
        match itemMap.lookup "text" with
        | some (.str text) => textParts ++ [text]
        | _ => textParts
      else textParts
    | _ => textParts
  | _ => textParts

/-- ProcessMessageContent extracts the plain text of a message content
(`main.go`, `ProcessMessageContent`). -/
def ProcessMessageContent (content : Dyn) : String :=
  match content with
  | .str v => v
  | .arr v => stringsJoin (v.foldl collectTextPart []) "\n"
  | .obj v =>
    match v.lookup "text" with
    | some (.str text) => text
    | _ => ""
  | _ => ""

/-- The text of a block as the specification reads it: the `text` of an
object whose type tag is the string `"text"` and whose text is a string. -/
def blockText (block : Dyn) : Option String :=
  match block with
  | .obj fields =>
    match fields.lookup "type", fields.lookup "text" with
    | some (.str ty), some (.str text) => if ty = "text" then some text else none
    | _, _ => none
  | _ => none

/-- The reference extraction, following the words of the specification: a
plain string as it is; for a sequence of blocks the texts of the text blocks,
in order, joined by a newline; for an object its string text field; the empty
string for every other shape. -/
def extractTextSpec (content : Dyn) : String :=
  match content with
  | .str s => s
  | .arr blocks => "\n".intercalate (blocks.filterMap blockText)
  | .obj fields =>
    match fields.lookup "text" with
    | some (.str text) => text
    | _ => ""
  | _ => ""

/-! ## Message normalisation -/

/-- One iteration of the first loop of `TransformMessages`.  The pointer
`lastMessage` is nil before the first append and afterwards always addresses
the last element of `mergedMessages` (it is re-taken after every append), so
it is read as `mergedMessages.getLast?` and written by replacing the last
element. -/
def mergeStep (mergedMessages : List ChatMessage) (current : ChatMessage) :
    List ChatMessage :=
  let currentContent := ProcessMessageContent current.Content
  if currentContent = "" then mergedMessages
  else
    match mergedMessages.getLast? with
    | some lastMessage =>
      if lastMessage.Role = current.Role then
        let lastContent := ProcessMessageContent lastMessage.Content
        if lastContent ≠ "" then
          mergedMessages.dropLast ++
            [{ lastMessage with Content := .str (lastContent ++ "\n" ++ currentContent) }]
        else mergedMessages ++ [current]
      else mergedMessages ++ [current]
    | none => mergedMessages ++ [current]

/-- One iteration of the second loop of `TransformMessages`: the role switch
that re-wraps the text of `system`, `user` and `assistant` turns. -/
def transformStep (transformed : List ChatMessage) (msg : ChatMessage) :
    List ChatMessage :=
  let content := ProcessMessageContent msg.Content
  if msg.Role = "system" ∨ msg.Role = "user" then
    transformed ++ [{ Role := "user", Content := .blocks [{ Typ := "text", Text := content }] }]
  else if msg.Role = "assistant" then
    transformed ++ [{ Role := "assistant", Content := .blocks [{ Typ := "text", Text := content }] }]
  else transformed ++ [msg]

/-- The turn that `transformStep` appends for `msg`. -/
def transformOne (msg : ChatMessage) : ChatMessage :=
  let content := ProcessMessageContent msg.Content
  if msg.Role = "system" ∨ msg.Role = "user" then
    { Role := "user", Content := .blocks [{ Typ := "text", Text := content }] }
  else if msg.Role = "assistant" then
    { Role := "assistant", Content := .blocks [{ Typ := "text", Text := content }] }
  else msg

/-- The slice `mergedMessages` at the end of the first loop of
`TransformMessages`. -/
def mergedMessages (messages : List ChatMessage) : List ChatMessage :=
  messages.foldl mergeStep []

/-- TransformMessages normalises a conversation into the upstream format
(`main.go`, `TransformMessages`). -/
def TransformMessages (messages : List ChatMessage) : List ChatMessage :=
  if messages.length = 0 then messages
  else (mergedMessages messages).foldl transformStep []

/-- The roles of a sequence of turns, in order. -/
def roles (messages : List ChatMessage) : List String :=
  messages.map (fun m => m.Role)

/-- No two consecutive turns of the sequence have the same role. -/
def NoAdjacentSameRole (messages : List ChatMessage) : Prop :=
  List.Chain' (fun a b => a ≠ b) (roles messages)

/-- The role under which `transformStep` emits a turn of role `r`. -/
def upstreamRole (r : String) : String :=
  if r = "system" ∨ r = "user" then "user" else if r = "assistant" then "assistant" else r

/-! ## Parameter constraint engine -/

/-- OptMax holds the per-parameter maxima of a model. -/
structure OptMax where
  TemperatureMax : F64
  MaxTokensMax : Int
  PresencePenaltyMax : F64
  FrequencyPenaltyMax : F64
  TopPMax : F64
  TopKMax : Int

/-- ModelConfig is the capability descriptor of a model. -/
structure ModelConfig where
  ID : String
  Provider : String
  ProviderID : String
  Name : String
  MultiModal : Bool
  SystemPrompt : String
  OptMax : OptMax

/-- The registry entry `CONFIG.MODEL_CONFIG["o1-preview"]`. -/
def o1Preview : ModelConfig :=
  { ID := "o1", Provider := "OpenAI", ProviderID := "openai", Name := "o1",
    MultiModal := true, SystemPrompt := "",
    OptMax := { TemperatureMax := .fin 2, MaxTokensMax := 0, PresencePenaltyMax := .fin 2,
                FrequencyPenaltyMax := .fin 2, TopPMax := .fin 1, TopKMax := 500 } }

/-- The registry entry `CONFIG.MODEL_CONFIG["gpt-4o"]`. -/
def gpt4o : ModelConfig :=
  { ID := "gpt-4o", Provider := "OpenAI", ProviderID := "openai", Name := "GPT-4o",
    MultiModal := true, SystemPrompt := "",
    OptMax := { TemperatureMax := .fin 2, MaxTokensMax := 16380, PresencePenaltyMax := .fin 2,
                FrequencyPenaltyMax := .fin 2, TopPMax := .fin 1, TopKMax := 500 } }

/-- The Go comparison `x < y` on `float64`. -/
def F64.lt : F64 → F64 → Bool
  | .fin a, .fin b => decide (a < b)
  | .fin _, .posInf => true
  | .negInf, .fin _ => true
  | .negInf, .posInf => true
  | _, _ => false

/-- The Go comparison `x > 0` on `float64`. -/
def F64.gtZero (x : F64) : Bool := F64.lt (.fin 0) x

/-- The Go comparison `x == 0` on `float64`. -/
def F64.eqZero : F64 → Bool
  | .fin q => decide (q = 0)
  | _ => false

/-- The Go library function `math.Min`, with its special cases in the order
of the library: an argument `-Inf` gives `-Inf`, then an argument NaN gives
NaN, otherwise the smaller argument. -/
def mathMin (x y : F64) : F64 :=
  if x = .negInf ∨ y = .negInf then .negInf
  else if x = .nan ∨ y = .nan then .nan
  else if F64.lt x y then x else y

/-- The number of low bits that a magnitude loses when it is rounded to the
53-bit significand of a `float64`: the least `s` with `a / 2^s < 2^53`
(`fuel` bounds the search; 64 covers every magnitude below `2^117`). -/
def roundShift : Nat → Nat → Nat
  | 0, _ => 0
  | fuel + 1, a => if a < 2 ^ 53 then 0 else 1 + roundShift fuel (a / 2)

/-- The magnitude `a` rounded to a 53-bit significand, ties to even. -/
def roundMagnitude (a : Nat) : Nat :=
  let s := roundShift 64 a
  let q := a / 2 ^ s
  let r := a % 2 ^ s
  let half := 2 ^ s / 2
  if r > half ∨ (r = half ∧ s ≠ 0 ∧ q % 2 = 1) then (q + 1) * 2 ^ s else q * 2 ^ s

/-- The Go conversion `float64(i)` of an `int`: the nearest `float64`, ties to
even.  The result is an integer, returned as such. -/
def float64OfInt (i : Int) : Int :=
  if 0 ≤ i then (roundMagnitude i.natAbs : Int) else -(roundMagnitude i.natAbs : Int)

/-- The Go conversion `int(f)` of a `float64`: truncation toward zero.  For a
value outside the `int` range (NaN and the infinities included) the language
leaves the result to the implementation; the amd64 result `-2^63` is used. -/
def intOfFloat64 : F64 → Int
  | .fin q =>
    let t := Int.tdiv q.num q.den
    if -2 ^ 63 ≤ t ∧ t < 2 ^ 63 then t else -2 ^ 63
  | _ => -2 ^ 63

/-- The table `optionsMap` of `ConfigOpt`. -/
def optionsMap : List (String × String) :=
  [("temperature", "TemperatureMax"),
   ("max_tokens", "MaxTokensMax"),
   ("presence_penalty", "PresencePenaltyMax"),
   ("frequency_penalty", "FrequencyPenaltyMax"),
   ("top_p", "TopPMax"),
   ("top_k", "TopKMax")]

/-- The map assignment `m[k] = v`. -/
def mapSet (m : List (String × Dyn)) (k : String) (v : Dyn) : List (String × Dyn) :=
  match m with
  | [] => [(k, v)]
  | (k1, v1) :: rest => if k1 = k then (k, v) :: rest else (k1, v1) :: mapSet rest k v

/-- The comparison `modelConfig.OptMax == (OptMax{})`. -/
def OptMax.isZero (o : OptMax) : Bool :=
  o.TemperatureMax.eqZero && decide (o.MaxTokensMax = 0) && o.PresencePenaltyMax.eqZero &&
    o.FrequencyPenaltyMax.eqZero && o.TopPMax.eqZero && decide (o.TopKMax = 0)

/-- The clamp of a float parameter: `math.Min(v, max)` stored under `key` when
the value is a `float64` and the maximum is positive. -/
def clampFloat (constrainedParams : List (String × Dyn)) (key : String) (value : Dyn)
    (max : F64) : List (String × Dyn) :=
  match value with
  | .float64 v =>
    if max.gtZero then mapSet constrainedParams key (.float64 (mathMin v max))
    else constrainedParams
  | _ => constrainedParams

/-- The clamp of an integer parameter:
`int(math.Min(float64(v), float64(max)))` stored under `key` when the value is
an `int` and the maximum is positive. -/
def clampInt (constrainedParams : List (String × Dyn)) (key : String) (value : Dyn)
    (max : Int) : List (String × Dyn) :=
  match value with
  | .int v =>
    if max > 0 then
      mapSet constrainedParams key
        (.int (intOfFloat64 (mathMin (.fin (float64OfInt v)) (.fin (float64OfInt max)))))
    else constrainedParams
  | _ => constrainedParams

/-- One iteration of the loop of `ConfigOpt` over the entries of `params`. -/
def configStep (modelConfig : ModelConfig) (constrainedParams : List (String × Dyn))
    (entry : String × Dyn) : List (String × Dyn) :=
  let key := entry.1
  let value := entry.2
  match optionsMap.lookup key, value with
  | none, _ => constrainedParams
  | some _, .null => constrainedParams
  | some maxKey, _ =>
    if maxKey = "TemperatureMax" then
      clampFloat constrainedParams key value modelConfig.OptMax.TemperatureMax
    else if maxKey = "MaxTokensMax" then
      clampInt constrainedParams key value modelConfig.OptMax.MaxTokensMax
    else if maxKey = "PresencePenaltyMax" then
      clampFloat constrainedParams key value modelConfig.OptMax.PresencePenaltyMax
    else if maxKey = "FrequencyPenaltyMax" then
      clampFloat constrainedParams key value modelConfig.OptMax.FrequencyPenaltyMax
    else if maxKey = "TopPMax" then
      clampFloat constrainedParams key value modelConfig.OptMax.TopPMax
    else if maxKey = "TopKMax" then
      clampInt constrainedParams key value modelConfig.OptMax.TopKMax
    else constrainedParams

/-- The value that `ConfigOpt` stores for an entry `key, value` of the
parameter map, if any: the float clamp for the four float parameters and the
integer clamp for the two integer parameters, when the value has the kind of
the parameter and the maximum of the model is positive. -/
def clampedValue (o : OptMax) (key : String) (value : Dyn) : Option Dyn :=
  let float (max : F64) : Option Dyn :=
    match value with
    | .float64 v => if max.gtZero then some (.float64 (mathMin v max)) else none
    | _ => none
  let int (max : Int) : Option Dyn :=
    match value with
    | .int v =>
      if max > 0 then
        some (.int (intOfFloat64 (mathMin (.fin (float64OfInt v)) (.fin (float64OfInt max)))))
      else none
    | _ => none
  if key = "temperature" then float o.TemperatureMax
  else if key = "max_tokens" then int o.MaxTokensMax
  else if key = "presence_penalty" then float o.PresencePenaltyMax
  else if key = "frequency_penalty" then float o.FrequencyPenaltyMax
  else if key = "top_p" then float o.TopPMax
  else if key = "top_k" then int o.TopKMax
  else none

/-- The condition of the specification for a parameter to be kept: the key is
one of the six parameter names, the value is a non-nil number of the kind of
that parameter, and the maximum of the model for it is positive. -/
def paramAccepted (o : OptMax) (key : String) (value : Dyn) : Prop :=
  (key = "temperature" ∧ (∃ f, value = .float64 f) ∧ o.TemperatureMax.gtZero = true) ∨
  (key = "max_tokens" ∧ (∃ i, value = .int i) ∧ 0 < o.MaxTokensMax) ∨
  (key = "presence_penalty" ∧ (∃ f, value = .float64 f) ∧ o.PresencePenaltyMax.gtZero = true) ∨
  (key = "frequency_penalty" ∧ (∃ f, value = .float64 f) ∧
    o.FrequencyPenaltyMax.gtZero = true) ∨
  (key = "top_p" ∧ (∃ f, value = .float64 f) ∧ o.TopPMax.gtZero = true) ∨
  (key = "top_k" ∧ (∃ i, value = .int i) ∧ 0 < o.TopKMax)

/-- ConfigOpt clamps the requested parameters against the maxima of the model
(`main.go`, `ConfigOpt`).  The parameter map is given by its entries in the
order the `range` loop visits them; `none` is the nil map. -/
def ConfigOpt (params : List (String × Dyn)) (modelConfig : ModelConfig) :
    Option (List (String × Dyn)) :=
  if modelConfig.OptMax.isZero then none
  else some (params.foldl (configStep modelConfig) [])

/-! ## Identifier generation -/

/-- The two lower-case hexadecimal digits that the verb `%x` prints for one
byte. -/
def hexByte (b : Nat) : List Char :=
  [Nat.digitChar (b / 16), Nat.digitChar (b % 16)]

/-- The lower-case hexadecimal digits. -/
def lowerHexDigits : List Char :=
  "0123456789abcdef".toList

/-- The Go formatting `fmt.Sprintf("%x", bs)` of a byte slice: two lower-case
hexadecimal digits per byte. -/
def fmtHex (bs : List Nat) : String :=
  String.mk (bs.flatMap hexByte)

/-- The byte slice `b[lo:hi]`. -/
def byteSlice (b : List Nat) (lo hi : Nat) : List Nat :=
  (b.drop lo).take (hi - lo)

/-- GenerateUUID renders a version-4 identifier (`main.go`, `GenerateUUID`).
The argument is the content of the 16-byte buffer after `rand.Read(b)`; the
`math/rand` reader always fills the buffer and returns a nil error, so the
fallback branch of the source is never taken. -/
def GenerateUUID (b : List Nat) : String :=
  let b := b.set 6 ((b.getD 6 0 &&& 0x0f) ||| 0x40)
  let b := b.set 8 ((b.getD 8 0 &&& 0x3f) ||| 0x80)
  fmtHex (byteSlice b 0 4) ++ "-" ++ fmtHex (byteSlice b 4 6) ++ "-" ++
    fmtHex (byteSlice b 6 8) ++ "-" ++ fmtHex (byteSlice b 8 10) ++ "-" ++
    fmtHex (b.drop 10)

/-! ## Request adapter -/

/-- ChatRequest is the decoded inbound request. -/
structure ChatRequest where
  Model : String
  Messages : List ChatMessage
  Temperature : F64
  MaxTokens : Int
  Stream : Bool
  PresencePenalty : F64
  FrequencyPenalty : F64
  TopP : F64
  TopK : Int

/-- The `Model` field of `E2BRequest`. -/
structure E2BModel where
  ID : String
  Provider : String
  ProviderID : String
  Name : String
  MultiModal : Bool

/-- E2BRequest is the upstream call envelope. -/
structure E2BRequest where
  UserID : String
  Messages : List ChatMessage
  Template : List (String × Dyn)
  Model : E2BModel
  Config : Option (List (String × Dyn))

/-- The constant `CONFIG.MODEL_PROMPT`. -/
def MODEL_PROMPT : String :=
  "Chatting with users and starting role-playing, the most important thing is to pay attention to their latest messages, use only 'text' to output the chat text reply content generated for user messages, and finally output it in code"

/-- PrepareChatRequest assembles the upstream envelope (`main.go`,
`PrepareChatRequest`).  `uuidBytes` is the random buffer read by the call to
`GenerateUUID`; `config` is `none` for a nil map.  The `[]string{""}` of the
template is written as an array of one string. -/
def PrepareChatRequest (uuidBytes : List Nat) (modelConfig : ModelConfig) (requestID : String)
    (request : ChatRequest) (config : Option (List (String × Dyn))) :
    Except String E2BRequest :=
  let _ := requestID
  let transformedMessages := TransformMessages request.Messages
  let config :=
    match config with
    | none => some [("model", Dyn.str modelConfig.ID)]
    | some c => some c
  .ok
    { UserID := GenerateUUID uuidBytes
      Messages := transformedMessages
      Template :=
        [("text", .obj
          [("name", .str MODEL_PROMPT),
           ("lib", .arr [.str ""]),
           ("file", .str "pages/ChatWithUsers.txt"),
           ("instructions", .str modelConfig.SystemPrompt),
           ("port", .null)])]
      Model :=
        { ID := modelConfig.ID
          Provider := modelConfig.Provider
          ProviderID := modelConfig.ProviderID
          Name := modelConfig.Name
          MultiModal := modelConfig.MultiModal }
      Config := config }

/-! ## UTF-8 and the strings of a JSON text -/

/-- A continuation byte of UTF-8. -/
def utf8Cont (b : Nat) : Bool := 0x80 ≤ b && b ≤ 0xBF

/-- The Go library predicate `utf8.Valid` on a byte sequence: every character
is a well-formed UTF-8 sequence (shortest form, no surrogate, at most
U+10FFFF). -/
def utf8Valid : List Nat → Bool
  | [] => true
  | b0 :: rest =>
    if b0 < 0x80 then utf8Valid rest
    else if 0xC2 ≤ b0 ∧ b0 ≤ 0xDF then
      match rest with
      | b1 :: r => utf8Cont b1 && utf8Valid r
      | _ => false
    else if 0xE0 ≤ b0 ∧ b0 ≤ 0xEF then
      match rest with
      | b1 :: b2 :: r =>
        utf8Cont b1 && utf8Cont b2 && (b0 != 0xE0 || 0xA0 ≤ b1) && (b0 != 0xED || b1 ≤ 0x9F) &&
          utf8Valid r
      | _ => false
    else if 0xF0 ≤ b0 ∧ b0 ≤ 0xF4 then
      match rest with
      | b1 :: b2 :: b3 :: r =>
        utf8Cont b1 && utf8Cont b2 && utf8Cont b3 && (b0 != 0xF0 || 0x90 ≤ b1) &&
          (b0 != 0xF4 || b1 ≤ 0x8F) && utf8Valid r
      | _ => false
    else false

/-- The string that the JSON text written by `json.Marshal` denotes for a Go
string with the bytes given.  The encoder walks the bytes with
`utf8.DecodeRuneInString`: a byte below 0x80 and a well-formed multi-byte
sequence are written as they are (or as an escape that denotes the same
character), and a byte at which no well-formed sequence starts is written as
the escape of U+FFFD, whose UTF-8 bytes are EF BF BD, the walk going on at
the next byte. -/
def jsonCoerce : List Nat → List Nat
  | [] => []
  | b0 :: rest =>
    let replaced := 0xEF :: 0xBF :: 0xBD :: jsonCoerce rest
    if b0 < 0x80 then b0 :: jsonCoerce rest
    else if 0xC2 ≤ b0 ∧ b0 ≤ 0xDF then
      match rest with
      | b1 :: r => if utf8Cont b1 then b0 :: b1 :: jsonCoerce r else replaced
      | _ => replaced
    else if 0xE0 ≤ b0 ∧ b0 ≤ 0xEF then
      match rest with
      | b1 :: b2 :: r =>
        if utf8Cont b1 && utf8Cont b2 && (b0 != 0xE0 || 0xA0 ≤ b1) && (b0 != 0xED || b1 ≤ 0x9F)
        then b0 :: b1 :: b2 :: jsonCoerce r
        else replaced
      | _ => replaced
    else if 0xF0 ≤ b0 ∧ b0 ≤ 0xF4 then
      match rest with
      | b1 :: b2 :: b3 :: r =>
        if utf8Cont b1 && utf8Cont b2 && utf8Cont b3 && (b0 != 0xF0 || 0x90 ≤ b1) &&
            (b0 != 0xF4 || b1 ≤ 0x8F)
        then b0 :: b1 :: b2 :: b3 :: jsonCoerce r
        else replaced
      | _ => replaced
    else replaced

/-! ## Response emitter, emulated-stream mode -/

/-- One element of `Choices` in a stream event; `Delta` is the chunk stored
under `"content"`, `FinishReason` is `none` for a nil pointer. -/
structure StreamChoice where
  Index : Int
  Delta : List Nat
  FinishReason : Option String
  deriving DecidableEq

/-- The anonymous struct `eventData` of `handleStreamResponseGin`. -/
structure StreamEvent where
  ID : String
  Object : String
  Created : Int
  Model : String
  Choices : List StreamChoice
  deriving DecidableEq

/-- A frame written to the response: `event e` is the frame `"data: " ++ text
++ "\n\n"` whose JSON text denotes the value `e`, `raw s` is the literal text
`s`. -/
inductive Frame where
  | event (e : StreamEvent) : Frame
  | raw (s : String) : Frame
  deriving DecidableEq

/-- The oracles read by the emission loop: the result of the `n`-th call of
`rand.Intn(15)`, the random buffer of the `n`-th call of `GenerateUUID`, and
the result of the `n`-th call of `time.Now().Unix()`. -/
structure StreamEnv where
  Intn15 : Nat → Fin 15
  uuidBytes : Nat → List Nat
  nowUnix : Nat → Int

/-- The state of the emission loop: the cursor `index`, the number of
iterations done, and the frames written so far. -/
structure StreamState where
  index : Nat
  iter : Nat
  frames : List Frame

/-- The value denoted by the JSON text `json.Marshal(eventData)`: the event
with the chunk of every choice as the JSON text carries it.  The other string
fields hold well-formed text and are denoted unchanged.  `json.Marshal` cannot
fail on `eventData` (strings, integers and a string map), so its error return
is not taken. -/
def jsonMarshal (eventData : StreamEvent) : StreamEvent :=
  { eventData with
    Choices := eventData.Choices.map (fun c => { c with Delta := jsonCoerce c.Delta }) }

/-- One iteration of the emission loop of `handleStreamResponseGin`: the
chunk is cut at byte offsets, stored in `eventData`, and the frame written
carries the marshalled event. -/
def streamStep (env : StreamEnv) (chatMessage : List Nat) (model : String)
    (s : StreamState) : StreamState :=
  let chunkSize := (env.Intn15 s.iter).val + 15
  let chunkSize :=
    if s.index + chunkSize > chatMessage.length then chatMessage.length - s.index
    else chunkSize
  let chunk := byteSlice chatMessage s.index (s.index + chunkSize)
  let index := s.index + chunkSize
  let finishReason := if index ≥ chatMessage.length then some "stop" else none
  let eventData : StreamEvent :=
    { ID := GenerateUUID (env.uuidBytes s.iter)
      Object := "chat.completion.chunk"
      Created := env.nowUnix s.iter
      Model := model
      Choices := [{ Index := 0, Delta := chunk, FinishReason := finishReason }] }
  let eventJSON := jsonMarshal eventData
  { index := index, iter := s.iter + 1, frames := s.frames ++ [Frame.event eventJSON] }

/-- The event built in the iteration number `iter` for a chunk and a finish
reason. -/
def chunkEvent (env : StreamEnv) (model : String) (iter : Nat) (chunk : List Nat)
    (reason : Option String) : StreamEvent :=
  { ID := GenerateUUID (env.uuidBytes iter)
    Object := "chat.completion.chunk"
    Created := env.nowUnix iter
    Model := model
    Choices := [{ Index := 0, Delta := chunk, FinishReason := reason }] }

/-- The emission loop `for index < len(chatMessage)`, run for at most `fuel`
iterations; `none` when the fuel is used up before the loop ends. -/
def streamLoop (env : StreamEnv) (chatMessage : List Nat) (model : String) :
    Nat → StreamState → Option StreamState
  | 0, s => if s.index < chatMessage.length then none else some s
  | fuel + 1, s =>
    if s.index < chatMessage.length then
      streamLoop env chatMessage model fuel (streamStep env chatMessage model s)
    else some s

/-- The sentinel frame that ends a stream. -/
def doneFrame : Frame := Frame.raw "data: [DONE]\n\n"

/-- handleStreamResponseGin returns the frames written for a completed text
(`main.go`, `handleStreamResponseGin`): the chunk events of the loop followed
by the sentinel.  The loop is given `len(chatMessage)` iterations of fuel. -/
def handleStreamResponseGin (env : StreamEnv) (chatMessage : List Nat) (model : String) :
    Option (List Frame) :=
  (streamLoop env chatMessage model chatMessage.length
    { index := 0, iter := 0, frames := [] }).map (fun s => s.frames ++ [doneFrame])

/-- The chunk texts carried by the event frames as written, in emission
order. -/
def frameChunks (frames : List Frame) : List (List Nat) :=
  frames.flatMap (fun f =>
    match f with
    | .event e => e.Choices.map (fun c => c.Delta)
    | .raw _ => [])

/-- The finish reasons carried by the event frames, in emission order. -/
def frameFinishReasons (frames : List Frame) : List (Option String) :=
  frames.flatMap (fun f =>
    match f with
    | .event e => e.Choices.map (fun c => c.FinishReason)
    | .raw _ => [])

/-- A sample environment: the draws 0, 7, 14, 6, ... (chunk sizes 15, 22, 29,
21, ...), the random buffer 0, 1, ..., 15 and the clock at 1700000000. -/
def sampleEnv : StreamEnv :=
  { Intn15 := fun n => ⟨7 * n % 15, Nat.mod_lt _ (by decide)⟩
    uuidBytes := fun _ => List.range 16
    nowUnix := fun _ => 1700000000 }

/-- The invariant of the emission loop while the cursor is inside the text:
the chunks written so far are the marshalled forms of byte slices that make
up the text before the cursor, each slice has 15 to 29 bytes, no chunk carries
a finish reason, and every frame is an event with one choice. -/
def StreamMid (msg : List Nat) (s : StreamState) : Prop :=
  s.index ≤ msg.length ∧
  (∀ f ∈ s.frames, ∃ e, f = Frame.event e ∧ e.Choices.length = 1) ∧
  ∃ slices : List (List Nat),
    frameChunks s.frames = slices.map jsonCoerce ∧
    slices.flatten = msg.take s.index ∧
    (∀ c ∈ slices, 15 ≤ c.length ∧ c.length ≤ 29) ∧
    frameFinishReasons s.frames = List.replicate slices.length none

/-- The state of the emission loop once the cursor has reached the end of a
non-empty text: the chunks written are the marshalled forms of byte slices
that make up the text, all slices but the last have 15 to 29 bytes, the last
has 1 to 29 bytes and its chunk is the only one that carries the stop reason,
and every frame is an event with one choice. -/
def StreamFinal (msg : List Nat) (s : StreamState) : Prop :=
  s.index = msg.length ∧
  (∀ f ∈ s.frames, ∃ e, f = Frame.event e ∧ e.Choices.length = 1) ∧
  ∃ (init : List (List Nat)) (last : List Nat),
    frameChunks s.frames = (init ++ [last]).map jsonCoerce ∧
    (init ++ [last]).flatten = msg ∧
    (∀ c ∈ init, 15 ≤ c.length ∧ c.length ≤ 29) ∧
    1 ≤ last.length ∧ last.length ≤ 29 ∧
    frameFinishReasons s.frames = List.replicate init.length none ++ [some "stop"]

/-! ## Request handler: parameter map and upstream reply -/

/-- The optional generation parameters of a request body as the client wrote
them: `none` for a field that the JSON body leaves out. -/
structure RequestBody where
  model : String
  messages : List ChatMessage
  temperature : Option F64
  max_tokens : Option Int
  stream : Option Bool
  presence_penalty : Option F64
  frequency_penalty : Option F64
  top_p : Option F64
  top_k : Option Int

/-- The decoding `c.BindJSON(&chatRequest)` of a well-typed body into the
struct `ChatRequest`: the fields of the struct are plain `float64`, `int` and
`bool` (not pointers), so a field that the body leaves out keeps the zero
value of its type. -/
def decodeChatRequest (body : RequestBody) : ChatRequest :=
  { Model := body.model
    Messages := body.messages
    Temperature := body.temperature.getD (.fin 0)
    MaxTokens := body.max_tokens.getD 0
    Stream := body.stream.getD false
    PresencePenalty := body.presence_penalty.getD (.fin 0)
    FrequencyPenalty := body.frequency_penalty.getD (.fin 0)
    TopP := body.top_p.getD (.fin 0)
    TopK := body.top_k.getD 0 }

/-- The map literal `params` that `handleChatRequestGin` builds from the
decoded request, as its six entries. -/
def handleChatRequestGinParams (chatRequest : ChatRequest) : List (String × Dyn) :=
  [("temperature", .float64 chatRequest.Temperature),
   ("max_tokens", .int chatRequest.MaxTokens),
   ("presence_penalty", .float64 chatRequest.PresencePenalty),
   ("frequency_penalty", .float64 chatRequest.FrequencyPenalty),
   ("top_p", .float64 chatRequest.TopP),
   ("top_k", .int chatRequest.TopK)]

/-- The six parameter names. -/
def parameterNames : List String :=
  ["temperature", "max_tokens", "presence_penalty", "frequency_penalty", "top_p", "top_k"]

/-- E2BResponse is the decoded upstream reply. -/
structure E2BResponse where
  Code : String
  Text : String

/-- ChatChoice is one choice of a completion. -/
structure ChatChoice where
  Index : Int
  Message : ChatMessage
  Delta : Dyn
  FinishReason : String

/-- ChatCompletionResponse is the completion object of immediate mode. -/
structure ChatCompletionResponse where
  ID : String
  Object : String
  Created : Int
  Model : String
  Choices : List ChatChoice
  Usage : Dyn

/-- The Go library predicate `unicode.IsSpace`. -/
def unicodeIsSpace (c : Char) : Bool :=
  let n := c.toNat
  (0x09 ≤ n && n ≤ 0x0D) || n == 0x20 || n == 0x85 || n == 0xA0 || n == 0x1680 ||
    (0x2000 ≤ n && n ≤ 0x200A) || n == 0x2028 || n == 0x2029 || n == 0x202F ||
    n == 0x205F || n == 0x3000

/-- The Go library function `strings.TrimSpace`: the string without its
leading and trailing white space. -/
def stringsTrimSpace (s : String) : String :=
  String.mk ((s.data.dropWhile unicodeIsSpace).reverse.dropWhile unicodeIsSpace).reverse

/-- What the handler writes once the upstream reply is decoded: the error
object of `handleInternalErrorGin` (status 500), the completion object of
`handleNormalResponseGin` (status 200), or the frames of
`handleStreamResponseGin`. -/
inductive HandlerResult where
  | serverError (status : Nat) (errorType : String) (message : String) : HandlerResult
  | completion (status : Nat) (response : ChatCompletionResponse) : HandlerResult
  | stream (frames : Option (List Frame)) : HandlerResult

/-- The error object written by `handleInternalErrorGin`. -/
def handleInternalErrorGin (message : String) : HandlerResult :=
  .serverError 500 "server_error"
    (message ++ " 请求失败，可能是上下文超出限制或其他错误，请稍后重试。")

/-- The completion object written by `handleNormalResponseGin`; `uuidBytes`
is the random buffer of its call of `GenerateUUID` and `now` the result of
`time.Now().Unix()`. -/
def handleNormalResponseGin (uuidBytes : List Nat) (now : Int) (chatMessage : String)
    (model : String) : HandlerResult :=
  .completion 200
    { ID := GenerateUUID uuidBytes
      Object := "chat.completion"
      Created := now
      Model := model
      Choices :=
        [{ Index := 0
           Message := { Role := "assistant", Content := .str chatMessage }
           Delta := .null
           FinishReason := "stop" }]
      Usage := .null }

/-- The UTF-8 encoding of one character. -/
def utf8EncodeChar (c : Char) : List Nat :=
  let n := c.toNat
  if n < 0x80 then [n]
  else if n < 0x800 then [0xC0 + n / 64, 0x80 + n % 64]
  else if n < 0x10000 then [0xE0 + n / 4096, 0x80 + n / 64 % 64, 0x80 + n % 64]
  else [0xF0 + n / 262144, 0x80 + n / 4096 % 64, 0x80 + n / 64 % 64, 0x80 + n % 64]

/-- The bytes of a Go string that holds the text `s`: its UTF-8 encoding. -/
def utf8Bytes (s : String) : List Nat :=
  s.data.flatMap utf8EncodeChar

/-- The text that `handleChatRequestGin` selects from the upstream reply:
the trimmed `code`, or the trimmed `text` when that is empty. -/
def selectChatMessage (e2bResponse : E2BResponse) : String :=
  let chatMessage := stringsTrimSpace e2bResponse.Code
  if chatMessage = "" then stringsTrimSpace e2bResponse.Text else chatMessage

/-- The end of `handleChatRequestGin`, from the decoded upstream reply on:
the selection of the text, the failure branch when it is empty, and the
dispatch on `chatRequest.Stream`.  The oracles of `env` serve the calls of the
response function that runs. -/
def handleChatRequestGinReply (env : StreamEnv) (chatRequest : ChatRequest)
    (e2bResponse : E2BResponse) : HandlerResult :=
  let chatMessage := stringsTrimSpace e2bResponse.Code
  let chatMessage := if chatMessage = "" then stringsTrimSpace e2bResponse.Text else chatMessage
  if chatMessage = "" then handleInternalErrorGin "未从上游服务获取到响应"
  else if chatRequest.Stream then
    .stream (handleStreamResponseGin env (utf8Bytes chatMessage) chatRequest.Model)
  else handleNormalResponseGin (env.uuidBytes 0) (env.nowUnix 0) chatMessage chatRequest.Model

/-- An environment whose every draw of `rand.Intn(15)` is 0, so that every
chunk size is 15. -/
def size15Env : StreamEnv :=
  { Intn15 := fun _ => ⟨0, by decide⟩
    uuidBytes := fun _ => List.range 16
    nowUnix := fun _ => 1700000000 }

/-- An environment whose every draw of `rand.Intn(15)` is 14, so that every
chunk size is 29. -/
def size29Env : StreamEnv :=
  { Intn15 := fun _ => ⟨14, by decide⟩
    uuidBytes := fun _ => List.range 16
    nowUnix := fun _ => 1700000000 }

/-- A request body for gpt-4o that sets `max_tokens` and leaves the other
generation parameters out. -/
def sampleBody : RequestBody :=
  { model := "gpt-4o"
    messages := [{ Role := "user", Content := .str "hello" }]
    temperature := none
    max_tokens := some 100
    stream := none
    presence_penalty := none
    frequency_penalty := none
    top_p := none
    top_k := none }

/-! ## Theorems: message normalisation -/

/-- A fold keeps a property that each of its steps keeps. -/
theorem foldl_preserves {α β : Type} (f : β → α → β) (P : β → Prop) (l : List α)
    (hf : ∀ b, ∀ a ∈ l, P b → P (f b a)) (b : β) (hb : P b) : P (l.foldl f b) := by
  induction l generalizing b with
  | nil => simpa using hb
  | cons x xs ih =>
    simp only [List.foldl_cons]
    apply ih
    · intro b1 a ha hb1
      exact hf b1 a (List.mem_cons_of_mem _ ha) hb1
    · exact hf b x (List.mem_cons_self _ _) hb

/-- A merged text is never empty. -/
theorem merged_text_ne_empty (a b : String) : a ++ "\n" ++ b ≠ "" := by
  intro h
  have h1 := congrArg String.length h
  simp only [String.length_append] at h1
  have h2 : "\n".length = 1 := rfl
  have h3 : "".length = 0 := rfl
  omega

/-- A list with a last element is its `dropLast` followed by that element. -/
theorem dropLast_append_of_getLast {α : Type} (l : List α) (x : α)
    (h : l.getLast? = some x) : l = l.dropLast ++ [x] := by
  have hne : l ≠ [] := by
    intro hnil
    simp [hnil] at h
  have h2 := List.dropLast_append_getLast hne
  rw [List.getLast?_eq_getLast l hne] at h
  simp only [Option.some.injEq] at h
  rw [h] at h2
  exact h2.symm

/-- The roles after one merge step: unchanged, or extended by the role of the
current turn when that differs from the last role. -/
theorem roles_mergeStep (acc : List ChatMessage) (current : ChatMessage)
    (hacc : ∀ m ∈ acc, ProcessMessageContent m.Content ≠ "") :
    roles (mergeStep acc current) = roles acc ∨
      (roles (mergeStep acc current) = roles acc ++ [current.Role] ∧
        ∀ r ∈ (roles acc).getLast?, r ≠ current.Role) := by
  unfold mergeStep
  simp only
  split
  · exact Or.inl rfl
  · cases hlast : acc.getLast? with
    | none =>
      right
      have hnil : acc = [] := by simpa using hlast
      simp [roles, hnil]
    | some lastMessage =>
      simp only
      have hdec := dropLast_append_of_getLast acc lastMessage hlast
      have hmem : lastMessage ∈ acc := by
        rw [hdec]; simp
      by_cases hrole : lastMessage.Role = current.Role
      · have htext := hacc lastMessage hmem
        left
        simp only [hrole, htext, ne_eq, not_false_eq_true, if_true]
        conv_rhs => rw [hdec]
        simp [roles, hrole]
      · right
        simp only [hrole, if_false]
        refine ⟨by simp [roles], ?_⟩
        intro r hr
        have : (roles acc).getLast? = some lastMessage.Role := by
          rw [hdec]; simp [roles]
        rw [this] at hr
        simp only [Option.mem_def, Option.some.injEq] at hr
        rw [← hr]
        exact hrole

/-- Every turn kept by a merge step has a non-empty extracted text. -/
theorem mergeStep_text_ne_empty (acc : List ChatMessage) (current : ChatMessage)
    (hacc : ∀ m ∈ acc, ProcessMessageContent m.Content ≠ "") :
    ∀ m ∈ mergeStep acc current, ProcessMessageContent m.Content ≠ "" := by
  unfold mergeStep
  simp only
  split
  · exact hacc
  · rename_i hcur
    have happ : ∀ m ∈ acc ++ [current], ProcessMessageContent m.Content ≠ "" := by
      intro m hm
      rcases List.mem_append.mp hm with h | h
      · exact hacc m h
      · simp only [List.mem_singleton] at h
        rw [h]; exact hcur
    cases hlast : acc.getLast? with
    | none => simpa using happ
    | some lastMessage =>
      simp only
      split
      · split
        · intro m hm
          rcases List.mem_append.mp hm with h | h
          · exact hacc m (List.mem_of_mem_dropLast h)
          · simp only [List.mem_singleton] at h
            rw [h]
            simp only [ProcessMessageContent]
            exact merged_text_ne_empty _ _
        · exact happ
      · exact happ

/-- The invariant of the first loop of `TransformMessages`: no two consecutive
kept turns share a role, and every kept turn has a non-empty text. -/
theorem mergeStep_invariant (acc : List ChatMessage) (current : ChatMessage)
    (h : NoAdjacentSameRole acc ∧ ∀ m ∈ acc, ProcessMessageContent m.Content ≠ "") :
    NoAdjacentSameRole (mergeStep acc current) ∧
      ∀ m ∈ mergeStep acc current, ProcessMessageContent m.Content ≠ "" := by
  refine ⟨?_, mergeStep_text_ne_empty acc current h.2⟩
  unfold NoAdjacentSameRole
  rcases roles_mergeStep acc current h.2 with hr | ⟨hr, hne⟩
  · rw [hr]; exact h.1
  · rw [hr]
    refine List.chain'_append.mpr ⟨h.1, List.chain'_singleton _, ?_⟩
    intro x hx y hy
    simp only [List.head?_cons, Option.mem_def, Option.some.injEq] at hy
    rw [← hy]
    exact hne x hx

/-- The merged sequence has no two consecutive turns with the same role and
only turns with a non-empty text. -/
theorem mergedMessages_invariant (messages : List ChatMessage) :
    NoAdjacentSameRole (mergedMessages messages) ∧
      ∀ m ∈ mergedMessages messages, ProcessMessageContent m.Content ≠ "" := by
  unfold mergedMessages
  apply foldl_preserves mergeStep
    (fun acc => NoAdjacentSameRole acc ∧ ∀ m ∈ acc, ProcessMessageContent m.Content ≠ "")
  · intro b a _ hb
    exact mergeStep_invariant b a hb
  · exact ⟨by simp [NoAdjacentSameRole, roles], by simp⟩

/-- A merge step introduces no role other than that of the current turn. -/
theorem mergeStep_roles_mem (P : String → Prop) (acc : List ChatMessage)
    (current : ChatMessage) (hcur : P current.Role)
    (h : (∀ m ∈ acc, ProcessMessageContent m.Content ≠ "") ∧ ∀ r ∈ roles acc, P r) :
    (∀ m ∈ mergeStep acc current, ProcessMessageContent m.Content ≠ "") ∧
      ∀ r ∈ roles (mergeStep acc current), P r := by
  refine ⟨mergeStep_text_ne_empty acc current h.1, ?_⟩
  rcases roles_mergeStep acc current h.1 with hr | ⟨hr, _⟩
  · rw [hr]; exact h.2
  · rw [hr]
    intro r hmem
    rcases List.mem_append.mp hmem with h1 | h1
    · exact h.2 r h1
    · simp only [List.mem_singleton] at h1
      rw [h1]; exact hcur

/-- Every role of the merged sequence is the role of an input turn. -/
theorem mergedMessages_roles (P : String → Prop) (messages : List ChatMessage)
    (hP : ∀ m ∈ messages, P m.Role) : ∀ r ∈ roles (mergedMessages messages), P r := by
  have key : (∀ m ∈ mergedMessages messages, ProcessMessageContent m.Content ≠ "") ∧
      ∀ r ∈ roles (mergedMessages messages), P r := by
    unfold mergedMessages
    apply foldl_preserves mergeStep
      (fun acc => (∀ m ∈ acc, ProcessMessageContent m.Content ≠ "") ∧ ∀ r ∈ roles acc, P r)
    · intro b a ha hb
      exact mergeStep_roles_mem P b a (hP a ha) hb
    · exact ⟨by simp, by simp [roles]⟩
  exact key.2

/-- Each iteration of the second loop appends exactly one turn. -/
theorem transformStep_eq (transformed : List ChatMessage) (msg : ChatMessage) :
    transformStep transformed msg = transformed ++ [transformOne msg] := by
  unfold transformStep transformOne
  simp only
  split
  · rfl
  · split <;> rfl

/-- The second loop maps the merged turns one by one. -/
theorem foldl_transformStep (l init : List ChatMessage) :
    l.foldl transformStep init = init ++ l.map transformOne := by
  induction l generalizing init with
  | nil => simp
  | cons x xs ih =>
    simp only [List.foldl_cons, List.map_cons]
    rw [ih, transformStep_eq]
    simp

/-- The output of `TransformMessages` is the merged sequence mapped turn by
turn. -/
theorem TransformMessages_eq_map (messages : List ChatMessage) :
    TransformMessages messages = (mergedMessages messages).map transformOne := by
  unfold TransformMessages
  split
  · rename_i h
    have hnil : messages = [] := List.length_eq_zero.mp h
    subst hnil
    simp [mergedMessages]
  · rw [foldl_transformStep]
    simp

/-- The role of an emitted turn. -/
theorem transformOne_role (msg : ChatMessage) :
    (transformOne msg).Role = upstreamRole msg.Role := by
  unfold transformOne upstreamRole
  simp only
  split
  · rfl
  · split <;> simp_all

/-- C1 fails at a system turn followed by a user turn: both are emitted with
role user. -/
theorem TransformMessages_adjacent_counterexample :
    roles (TransformMessages
      [{ Role := "system", Content := .str "a" }, { Role := "user", Content := .str "b" }]) =
        ["user", "user"] ∧
    ¬ NoAdjacentSameRole (TransformMessages
      [{ Role := "system", Content := .str "a" }, { Role := "user", Content := .str "b" }]) := by
  have hroles : roles (TransformMessages
      [{ Role := "system", Content := .str "a" }, { Role := "user", Content := .str "b" }]) =
        ["user", "user"] := by decide
  refine ⟨hroles, ?_⟩
  intro h
  unfold NoAdjacentSameRole at h
  rw [hroles] at h
  simp at h

/-- C1 as amended: the sequence kept by the merge loop has no two consecutive
turns with the same role, the roles of the output are the roles of that
sequence with system rewritten to user, and so the output has no two
consecutive turns with the same role whenever no input turn is a system
turn. -/
theorem TransformMessages_roles (messages : List ChatMessage) :
    NoAdjacentSameRole (mergedMessages messages) ∧
    roles (TransformMessages messages) = (roles (mergedMessages messages)).map upstreamRole ∧
    ((∀ m ∈ messages, m.Role ≠ "system") → NoAdjacentSameRole (TransformMessages messages)) := by
  have hroles : roles (TransformMessages messages)
      = (roles (mergedMessages messages)).map upstreamRole := by
    rw [TransformMessages_eq_map]
    simp only [roles, List.map_map]
    apply List.map_congr_left
    intro m _
    simp [transformOne_role]
  refine ⟨(mergedMessages_invariant messages).1, hroles, ?_⟩
  intro hsys
  have hno := mergedMessages_roles (fun r => r ≠ "system") messages hsys
  have hid : (roles (mergedMessages messages)).map upstreamRole
      = roles (mergedMessages messages) := by
    conv_rhs => rw [← List.map_id (roles (mergedMessages messages))]
    apply List.map_congr_left
    intro r hr
    have h1 := hno r hr
    unfold upstreamRole
    simp only [id]
    split
    · rename_i h2
      rcases h2 with h2 | h2
      · exact absurd h2 h1
      · exact h2.symm
    · split
      · rename_i h3; exact h3.symm
      · rfl
  unfold NoAdjacentSameRole
  rw [hroles, hid]
  exact (mergedMessages_invariant messages).1

/-- The amended C1 at a conversation without system turns. -/
theorem TransformMessages_roles_witness :
    roles (TransformMessages
      [{ Role := "user", Content := .str "a" }, { Role := "user", Content := .str "b" },
       { Role := "assistant", Content := .str "c" }]) = ["user", "assistant"] ∧
    NoAdjacentSameRole (TransformMessages
      [{ Role := "user", Content := .str "a" }, { Role := "user", Content := .str "b" },
       { Role := "assistant", Content := .str "c" }]) :=
  ⟨by decide,
   (TransformMessages_roles
      [{ Role := "user", Content := .str "a" }, { Role := "user", Content := .str "b" },
       { Role := "assistant", Content := .str "c" }]).2.2 (by decide)⟩

/-- Joining after merging the first two elements gives the same text. -/
theorem stringsJoin_merge_head (a b sep : String) (rest : List String) :
    stringsJoin ((a ++ sep ++ b) :: rest) sep = a ++ sep ++ stringsJoin (b :: rest) sep := by
  cases rest with
  | nil => simp [stringsJoin]
  | cons c rs => simp [stringsJoin, String.append_assoc]

/-- A merge step on a one-turn sequence whose role is that of the current turn
appends the current text to the kept turn. -/
theorem mergeStep_same_role (m0 current : ChatMessage) (hrole : m0.Role = current.Role)
    (h0 : ProcessMessageContent m0.Content ≠ "")
    (hcur : ProcessMessageContent current.Content ≠ "") :
    mergeStep [m0] current =
      [{ Role := m0.Role,
         Content := .str (ProcessMessageContent m0.Content ++ "\n" ++
           ProcessMessageContent current.Content) }] := by
  unfold mergeStep
  simp [hcur, hrole, h0]

/-- Merging a run of turns of one role into a kept turn of that role leaves a
single turn whose text is the join of all the texts. -/
theorem foldl_mergeStep_same_role (r : String) (l : List ChatMessage) :
    ∀ m0 : ChatMessage, m0.Role = r → ProcessMessageContent m0.Content ≠ "" →
      (∀ m ∈ l, m.Role = r) → (∀ m ∈ l, ProcessMessageContent m.Content ≠ "") →
      ∃ c, l.foldl mergeStep [m0] = [{ Role := r, Content := c }] ∧
        ProcessMessageContent c =
          stringsJoin (ProcessMessageContent m0.Content ::
            l.map (fun m => ProcessMessageContent m.Content)) "\n" := by
  induction l with
  | nil =>
    intro m0 hr _ _ _
    refine ⟨m0.Content, ?_, by simp [stringsJoin]⟩
    cases m0
    simp_all
  | cons x xs ih =>
    intro m0 hr h0 hroles htexts
    have hx : x.Role = r := hroles x (List.mem_cons_self _ _)
    have hxt : ProcessMessageContent x.Content ≠ "" := htexts x (List.mem_cons_self _ _)
    simp only [List.foldl_cons]
    rw [mergeStep_same_role m0 x (by rw [hr, hx]) h0 hxt]
    obtain ⟨c, hc, hjoin⟩ := ih
      { Role := m0.Role,
        Content := .str (ProcessMessageContent m0.Content ++ "\n" ++
          ProcessMessageContent x.Content) }
      hr (by simp only [ProcessMessageContent]; exact merged_text_ne_empty _ _)
      (fun m hm => hroles m (List.mem_cons_of_mem _ hm))
      (fun m hm => htexts m (List.mem_cons_of_mem _ hm))
    refine ⟨c, hc, ?_⟩
    rw [hjoin]
    simp only [ProcessMessageContent, List.map_cons]
    rw [stringsJoin_merge_head]
    simp [stringsJoin]

/-- C7: a non-empty sequence of turns that all have the same role `r` among
system, user and assistant, each with a non-empty extracted text, is
normalised to exactly one turn, of role user for system and user and of role
assistant otherwise, whose content is one text block holding the extracted
texts joined by a newline in input order. -/
theorem TransformMessages_same_role (r : String) (messages : List ChatMessage)
    (hne : messages ≠ [])
    (hr : r = "system" ∨ r = "user" ∨ r = "assistant")
    (hroles : ∀ m ∈ messages, m.Role = r)
    (htexts : ∀ m ∈ messages, ProcessMessageContent m.Content ≠ "") :
    TransformMessages messages =
      [{ Role := if r = "assistant" then "assistant" else "user",
         Content := .blocks
           [{ Typ := "text",
              Text := stringsJoin
                (messages.map (fun m => ProcessMessageContent m.Content)) "\n" }] }] := by
  cases messages with
  | nil => exact absurd rfl hne
  | cons m0 l =>
    have h0r : m0.Role = r := hroles m0 (List.mem_cons_self _ _)
    have h0t : ProcessMessageContent m0.Content ≠ "" := htexts m0 (List.mem_cons_self _ _)
    have hfirst : mergeStep [] m0 = [m0] := by
      unfold mergeStep
      simp [h0t]
    obtain ⟨c, hc, hjoin⟩ := foldl_mergeStep_same_role r l m0 h0r h0t
      (fun m hm => hroles m (List.mem_cons_of_mem _ hm))
      (fun m hm => htexts m (List.mem_cons_of_mem _ hm))
    rw [TransformMessages_eq_map]
    unfold mergedMessages
    simp only [List.foldl_cons]
    rw [hfirst, hc]
    simp only [List.map_cons, List.map_nil, transformOne, hjoin]
    rcases hr with h | h | h <;> subst h <;> simp

/-- C7 at two system turns, one plain and one a block sequence, and at a
single plain-text user turn, which yields one upstream turn with the same
text. -/
theorem TransformMessages_same_role_witness :
    TransformMessages
        [{ Role := "system", Content := .str "a" },
         { Role := "system",
           Content := .arr [.obj [("type", .str "text"), ("text", .str "b")]] }] =
      [{ Role := "user", Content := .blocks [{ Typ := "text", Text := "a\nb" }] }] ∧
    TransformMessages [{ Role := "user", Content := .str "hello" }] =
      [{ Role := "user", Content := .blocks [{ Typ := "text", Text := "hello" }] }] :=
  ⟨TransformMessages_same_role "system"
      [{ Role := "system", Content := .str "a" },
       { Role := "system",
         Content := .arr [.obj [("type", .str "text"), ("text", .str "b")]] }]
      (by simp) (by decide) (by simp) (by decide),
   TransformMessages_same_role "user" [{ Role := "user", Content := .str "hello" }]
      (by simp) (by decide) (by simp) (by decide)⟩

/-! ## Theorems: content extraction -/

/-- The accumulator form of the library join agrees with `stringsJoin`. -/
theorem intercalate_go_eq (sep : String) (l : List String) :
    ∀ acc : String, String.intercalate.go acc sep l = stringsJoin (acc :: l) sep := by
  induction l with
  | nil => intro acc; simp [String.intercalate.go, stringsJoin]
  | cons a rest ih =>
    intro acc
    simp only [String.intercalate.go]
    rw [ih, stringsJoin_merge_head]
    simp [stringsJoin]

/-- The model of `strings.Join` is the library join. -/
theorem stringsJoin_eq_intercalate (l : List String) (sep : String) :
    stringsJoin l sep = sep.intercalate l := by
  cases l with
  | nil => simp [stringsJoin, String.intercalate]
  | cons a rest =>
    simp only [String.intercalate]
    rw [intercalate_go_eq]

/-- Each iteration over the items appends the text of a text block and
nothing otherwise. -/
theorem collectTextPart_eq (textParts : List String) (item : Dyn) :
    collectTextPart textParts item = textParts ++ (blockText item).toList := by
  unfold collectTextPart blockText
  cases item with
  | obj itemMap =>
    simp only
    cases h1 : itemMap.lookup "type" with
    | none => simp
    | some t =>
      cases t with
      | str ty =>
        simp only
        by_cases hty : ty = "text"
        · simp only [hty, if_true]
          cases h2 : itemMap.lookup "text" with
          | none => simp
          | some x => cases x <;> simp
        · cases h2 : itemMap.lookup "text" with
          | none => simp
          | some x => cases x <;> simp [hty]
      | _ => simp
  | _ => simp

/-- The loop over the items collects the texts of the text blocks in order. -/
theorem foldl_collectTextPart (items : List Dyn) (init : List String) :
    items.foldl collectTextPart init = init ++ items.filterMap blockText := by
  induction items generalizing init with
  | nil => simp
  | cons x xs ih =>
    simp only [List.foldl_cons]
    rw [ih, collectTextPart_eq]
    cases h : blockText x <;> simp [List.filterMap_cons, h]

/-- C8: `ProcessMessageContent` is the reference extraction on every content
value: a plain string yields itself, a sequence yields the texts of its text
blocks joined by a newline, an object with a string text field yields that
field, every other shape yields the empty string; so a plain string and the
single text block holding it extract to the same string. -/
theorem ProcessMessageContent_refines (content : Dyn) (s : String) :
    ProcessMessageContent content = extractTextSpec content ∧
    ProcessMessageContent (.str s) = s ∧
    ProcessMessageContent (.arr [.obj [("type", .str "text"), ("text", .str s)]]) = s := by
  refine ⟨?_, rfl, ?_⟩
  · cases content with
    | arr items =>
      simp only [ProcessMessageContent, extractTextSpec]
      rw [foldl_collectTextPart, stringsJoin_eq_intercalate, List.nil_append]
    | obj fields => rfl
    | _ => rfl
  · simp [ProcessMessageContent, collectTextPart, List.lookup, stringsJoin]

/-! ## Theorems: parameter constraint engine -/

/-- Reading an association list at its head. -/
theorem lookup_cons_eq {β : Type} (k1 k : String) (v : β) (rest : List (String × β)) :
    List.lookup k1 ((k, v) :: rest) = if k1 = k then some v else List.lookup k1 rest := by
  by_cases h : k1 = k
  · subst h
    simp [List.lookup]
  · have hb : (k1 == k) = false := by simpa using h
    simp [List.lookup, hb, h]

/-- Reading a map after an assignment. -/
theorem lookup_mapSet (m : List (String × Dyn)) (k : String) (v : Dyn) (k1 : String) :
    (mapSet m k v).lookup k1 = if k1 = k then some v else m.lookup k1 := by
  induction m with
  | nil => simp [mapSet, lookup_cons_eq]
  | cons e rest ih =>
    obtain ⟨k2, v2⟩ := e
    unfold mapSet
    by_cases h2 : k2 = k
    · subst h2
      by_cases h : k1 = k2
      · simp [lookup_cons_eq, h]
      · simp [lookup_cons_eq, h]
    · by_cases h : k1 = k
      · subst h
        have h3 : ¬ k1 = k2 := fun h4 => h2 h4.symm
        simp [lookup_cons_eq, h2, h3, ih]
      · by_cases h5 : k1 = k2
        · simp [lookup_cons_eq, h2, h5]
        · simp [lookup_cons_eq, h, h2, h5, ih]

/-- One iteration of `ConfigOpt` stores the clamped value when there is one
and changes nothing otherwise. -/
theorem configStep_eq (modelConfig : ModelConfig) (acc : List (String × Dyn))
    (key : String) (value : Dyn) :
    configStep modelConfig acc (key, value) =
      match clampedValue modelConfig.OptMax key value with
      | some v => mapSet acc key v
      | none => acc := by
  unfold configStep clampedValue
  by_cases h1 : key = "temperature"
  · subst h1
    cases value <;> simp [optionsMap, lookup_cons_eq, clampFloat]
    split <;> rfl
  by_cases h2 : key = "max_tokens"
  · subst h2
    cases value <;> simp [optionsMap, lookup_cons_eq, clampInt]
    split <;> rfl
  by_cases h3 : key = "presence_penalty"
  · subst h3
    cases value <;> simp [optionsMap, lookup_cons_eq, clampFloat]
    split <;> rfl
  by_cases h4 : key = "frequency_penalty"
  · subst h4
    cases value <;> simp [optionsMap, lookup_cons_eq, clampFloat]
    split <;> rfl
  by_cases h5 : key = "top_p"
  · subst h5
    cases value <;> simp [optionsMap, lookup_cons_eq, clampFloat]
    split <;> rfl
  by_cases h6 : key = "top_k"
  · subst h6
    cases value <;> simp [optionsMap, lookup_cons_eq, clampInt]
    split <;> rfl
  simp [optionsMap, lookup_cons_eq, h1, h2, h3, h4, h5, h6]

/-- A value is stored for an entry exactly when the specification accepts the
entry. -/
theorem clampedValue_isSome_iff (o : OptMax) (key : String) (value : Dyn) :
    (clampedValue o key value).isSome = true ↔ paramAccepted o key value := by
  unfold clampedValue paramAccepted
  by_cases h1 : key = "temperature"
  · subst h1
    cases value <;> simp
  by_cases h2 : key = "max_tokens"
  · subst h2
    cases value <;> simp
  by_cases h3 : key = "presence_penalty"
  · subst h3
    cases value <;> simp
  by_cases h4 : key = "frequency_penalty"
  · subst h4
    cases value <;> simp
  by_cases h5 : key = "top_p"
  · subst h5
    cases value <;> simp
  by_cases h6 : key = "top_k"
  · subst h6
    cases value <;> simp
  simp [h1, h2, h3, h4, h5, h6]

/-- After one iteration a key is present when it was present before or the
iteration stored it. -/
theorem configStep_lookup_isSome (modelConfig : ModelConfig) (acc : List (String × Dyn))
    (k : String) (value : Dyn) (key : String) :
    ((configStep modelConfig acc (k, value)).lookup key).isSome = true ↔
      (acc.lookup key).isSome = true ∨
        (k = key ∧ (clampedValue modelConfig.OptMax k value).isSome = true) := by
  rw [configStep_eq]
  cases h : clampedValue modelConfig.OptMax k value with
  | none => simp
  | some v =>
    simp only [lookup_mapSet]
    by_cases hk : key = k
    · simp [hk]
    · have hk2 : ¬ k = key := fun h2 => hk h2.symm
      simp [hk, hk2]

/-- The keys present after the loop of `ConfigOpt`. -/
theorem foldl_configStep_lookup (modelConfig : ModelConfig) (params : List (String × Dyn))
    (key : String) :
    ∀ acc : List (String × Dyn),
      ((params.foldl (configStep modelConfig) acc).lookup key).isSome = true ↔
        (acc.lookup key).isSome = true ∨
          ∃ value, (key, value) ∈ params ∧
            (clampedValue modelConfig.OptMax key value).isSome = true := by
  induction params with
  | nil => intro acc; simp
  | cons e rest ih =>
    intro acc
    obtain ⟨k, value⟩ := e
    simp only [List.foldl_cons]
    rw [ih, configStep_lookup_isSome]
    constructor
    · rintro ((h | ⟨hk, hv⟩) | ⟨v, hmem, hv⟩)
      · exact Or.inl h
      · subst hk
        exact Or.inr ⟨value, List.mem_cons_self _ _, hv⟩
      · exact Or.inr ⟨v, List.mem_cons_of_mem _ hmem, hv⟩
    · rintro (h | ⟨v, hmem, hv⟩)
      · exact Or.inl (Or.inl h)
      · rcases List.mem_cons.mp hmem with heq | hmem2
        · simp only [Prod.mk.injEq] at heq
          obtain ⟨hk, hvv⟩ := heq
          subst hk hvv
          exact Or.inl (Or.inr ⟨rfl, hv⟩)
        · exact Or.inr ⟨v, hmem2, hv⟩

/-- A model whose maxima are all zero accepts no parameter. -/
theorem paramAccepted_of_isZero (o : OptMax) (h : o.isZero = true) (key : String)
    (value : Dyn) : ¬ paramAccepted o key value := by
  unfold OptMax.isZero at h
  simp only [Bool.and_eq_true, decide_eq_true_eq] at h
  obtain ⟨⟨⟨⟨⟨h1, h2⟩, h3⟩, h4⟩, h5⟩, h6⟩ := h
  have hz : ∀ x : F64, x.eqZero = true → x.gtZero = false := by
    intro x hx
    cases x <;> simp_all [F64.eqZero, F64.gtZero, F64.lt]
  unfold paramAccepted
  rw [hz _ h1, hz _ h3, hz _ h4, hz _ h5, h2, h6]
  simp

/-- C3: a key appears in the result of `ConfigOpt` exactly when it is one of
the six parameter names, the parameter map holds for it a non-nil value of
the kind of that parameter, and the maximum of the model for it is positive;
so `max_tokens`, whose maximum is zero for o1-preview, never appears for that
model.  `ConfigOpt` is a total function: no input makes it fail. -/
theorem ConfigOpt_keys (params : List (String × Dyn)) (modelConfig : ModelConfig)
    (key : String) :
    ((∃ c v, ConfigOpt params modelConfig = some c ∧ c.lookup key = some v) ↔
      ∃ value, (key, value) ∈ params ∧ paramAccepted modelConfig.OptMax key value) ∧
    (∀ c, ConfigOpt params o1Preview = some c → c.lookup "max_tokens" = none) := by
  have main : ∀ mc : ModelConfig, ∀ k : String,
      ((∃ c v, ConfigOpt params mc = some c ∧ c.lookup k = some v) ↔
        ∃ value, (k, value) ∈ params ∧ paramAccepted mc.OptMax k value) := by
    intro mc k
    unfold ConfigOpt
    by_cases hz : mc.OptMax.isZero = true
    · simp only [hz, if_true]
      constructor
      · rintro ⟨c, v, hc, _⟩
        exact absurd hc (by simp)
      · rintro ⟨value, _, hacc⟩
        exact absurd hacc (paramAccepted_of_isZero _ hz k value)
    · simp only [hz, Bool.false_eq_true, if_false]
      have h := foldl_configStep_lookup mc params k []
      simp only [List.lookup, Option.isSome_none, Bool.false_eq_true, false_or] at h
      constructor
      · rintro ⟨c, v, hc, hv⟩
        simp only [Option.some.injEq] at hc
        subst hc
        have h2 := h.mp (by rw [hv]; rfl)
        obtain ⟨value, hmem, hsome⟩ := h2
        exact ⟨value, hmem, (clampedValue_isSome_iff _ _ _).mp hsome⟩
      · rintro ⟨value, hmem, hacc⟩
        have h2 := h.mpr ⟨value, hmem, (clampedValue_isSome_iff _ _ _).mpr hacc⟩
        obtain ⟨v, hv⟩ := Option.isSome_iff_exists.mp h2
        exact ⟨_, v, rfl, hv⟩
  refine ⟨main modelConfig key, ?_⟩
  intro c hc
  cases hlk : c.lookup "max_tokens" with
  | none => rfl
  | some v =>
    obtain ⟨value, _, hacc⟩ := (main o1Preview "max_tokens").mp ⟨c, v, hc, hlk⟩
    exfalso
    simp [paramAccepted, o1Preview] at hacc

/-- The minimum of two finite floats. -/
theorem mathMin_fin (a b : Rat) : mathMin (.fin a) (.fin b) = .fin (min a b) := by
  unfold mathMin
  simp only [reduceCtorEq, or_self, if_false, F64.lt]
  by_cases h : a < b
  · simp [h, min_eq_left (le_of_lt h)]
  · simp [h, min_eq_right (not_lt.mp h)]

/-- The conversion to `int` of a float that holds an integer of the `int`
range. -/
theorem intOfFloat64_int (n : Int) (h1 : -2 ^ 63 ≤ n) (h2 : n < 2 ^ 63) :
    intOfFloat64 (.fin (n : Rat)) = n := by
  have ht : Int.tdiv (n : Rat).num (n : Rat).den = n := by simp
  simp only [intOfFloat64, ht]
  exact if_pos ⟨h1, h2⟩

/-- The rounding search: below `2^(53 + fuel)` the shift brings the magnitude
below `2^53`, and one bit less would not. -/
theorem roundShift_spec (fuel : Nat) :
    ∀ a : Nat, a < 2 ^ (53 + fuel) →
      a / 2 ^ roundShift fuel a < 2 ^ 53 ∧
        (0 < roundShift fuel a → 2 ^ 53 ≤ a / 2 ^ (roundShift fuel a - 1)) := by
  induction fuel with
  | zero =>
    intro a ha
    simp only [roundShift, Nat.pow_zero, Nat.div_one]
    exact ⟨by simpa using ha, fun h => absurd h (by decide)⟩
  | succ fuel ih =>
    intro a ha
    by_cases hsmall : a < 2 ^ 53
    · have hs : roundShift (fuel + 1) a = 0 := by rw [roundShift, if_pos hsmall]
      rw [hs, Nat.pow_zero, Nat.div_one]
      exact ⟨hsmall, fun h => absurd h (by decide)⟩
    · have hhalf : a / 2 < 2 ^ (53 + fuel) := by
        have h2 : 2 ^ (53 + (fuel + 1)) = 2 * 2 ^ (53 + fuel) := by
          rw [← Nat.add_assoc, Nat.pow_succ, Nat.mul_comm]
        rw [h2] at ha
        omega
      obtain ⟨h1, h2⟩ := ih (a / 2) hhalf
      simp only [roundShift, hsmall, if_false]
      have hpow : (2 : Nat) ^ (1 + roundShift fuel (a / 2)) = 2 * 2 ^ roundShift fuel (a / 2) := by
        rw [Nat.add_comm, Nat.pow_succ, Nat.mul_comm]
      constructor
      · rw [hpow, ← Nat.div_div_eq_div_mul]
        exact h1
      · intro _
        have hsub : 1 + roundShift fuel (a / 2) - 1 = roundShift fuel (a / 2) := by omega
        rw [hsub]
        by_cases hz : roundShift fuel (a / 2) = 0
        · rw [hz, Nat.pow_zero, Nat.div_one]
          omega
        · have h3 := h2 (Nat.pos_of_ne_zero hz)
          have hpow2 : (2 : Nat) ^ roundShift fuel (a / 2)
              = 2 * 2 ^ (roundShift fuel (a / 2) - 1) := by
            have hs : roundShift fuel (a / 2) = (roundShift fuel (a / 2) - 1) + 1 := by omega
            conv_lhs => rw [hs, Nat.pow_succ, Nat.mul_comm]
          rw [hpow2, ← Nat.div_div_eq_div_mul]
          exact h3

/-- A magnitude below `2^53` is a `float64`: rounding keeps it. -/
theorem roundMagnitude_small (a : Nat) (h : a < 2 ^ 53) : roundMagnitude a = a := by
  have hs : roundShift (63 + 1) a = 0 := by rw [roundShift, if_pos h]
  have hs2 : roundShift 64 a = 0 := hs
  unfold roundMagnitude
  simp only [hs2, Nat.pow_zero, Nat.div_one, Nat.mod_one, Nat.mul_one]
  simp

/-- Rounding a magnitude of at least `2^53` in the `int` range gives at least
`2^53`. -/
theorem roundMagnitude_large (a : Nat) (h : 2 ^ 53 ≤ a) (hlt : a < 2 ^ 64) :
    2 ^ 53 ≤ roundMagnitude a := by
  have hlt2 : a < 2 ^ (53 + 64) := lt_of_lt_of_le hlt (by norm_num)
  obtain ⟨_, h2⟩ := roundShift_spec 64 a hlt2
  have hpos : 0 < roundShift 64 a := by
    rcases Nat.eq_zero_or_pos (roundShift 64 a) with hz | hp
    · exfalso
      have h1 := (roundShift_spec 64 a hlt2).1
      rw [hz, Nat.pow_zero, Nat.div_one] at h1
      omega
    · exact hp
  have h3 := h2 hpos
  have hpow : (2 : Nat) ^ roundShift 64 a = 2 ^ (roundShift 64 a - 1) * 2 := by
    have hs : roundShift 64 a = (roundShift 64 a - 1) + 1 := by omega
    conv_lhs => rw [hs, Nat.pow_succ]
  have hq : 2 ^ 53 ≤ a / 2 ^ roundShift 64 a * 2 ^ roundShift 64 a := by
    have hone : 1 ≤ 2 ^ (roundShift 64 a - 1) := Nat.one_le_two_pow
    have hdiv : a / 2 ^ roundShift 64 a = a / 2 ^ (roundShift 64 a - 1) / 2 := by
      rw [hpow, Nat.div_div_eq_div_mul]
    have h52 : 2 ^ 52 ≤ a / 2 ^ roundShift 64 a := by
      rw [hdiv]; omega
    calc 2 ^ 53 = 2 ^ 52 * (1 * 2) := by norm_num
      _ ≤ a / 2 ^ roundShift 64 a * (2 ^ (roundShift 64 a - 1) * 2) :=
          Nat.mul_le_mul h52 (Nat.mul_le_mul hone (le_refl 2))
      _ = a / 2 ^ roundShift 64 a * 2 ^ roundShift 64 a := by rw [← hpow]
  unfold roundMagnitude
  simp only
  split
  · calc 2 ^ 53 ≤ a / 2 ^ roundShift 64 a * 2 ^ roundShift 64 a := hq
      _ ≤ (a / 2 ^ roundShift 64 a + 1) * 2 ^ roundShift 64 a :=
          Nat.mul_le_mul_right _ (Nat.le_succ _)
  · exact hq

/-- Where the integer clamp is exact: for a requested value from `-2^53` up
and a positive maximum of at most `2^53` (every maximum of the registry), the
value stored is the minimum of the two. -/
theorem clamp_int_exact (v m : Int) (hv : -2 ^ 53 ≤ v) (hv2 : v < 2 ^ 63) (hm : 0 < m)
    (hm2 : m ≤ 2 ^ 53) :
    intOfFloat64 (mathMin (.fin (float64OfInt v)) (.fin (float64OfInt m))) = min v m := by
  have hfm : float64OfInt m = m := by
    unfold float64OfInt
    rw [if_pos (le_of_lt hm)]
    rcases Nat.lt_or_ge m.natAbs (2 ^ 53) with h | h
    · rw [roundMagnitude_small _ h]
      omega
    · have heq : m.natAbs = 2 ^ 53 := by omega
      rw [heq]
      have hr : roundMagnitude (2 ^ 53) = 2 ^ 53 := by decide
      rw [hr]
      omega
  rw [hfm, mathMin_fin]
  by_cases hbig : v < 2 ^ 53
  · have hfv : float64OfInt v = v := by
      unfold float64OfInt
      by_cases h0 : 0 ≤ v
      · rw [if_pos h0, roundMagnitude_small _ (by omega)]
        omega
      · rw [if_neg h0]
        rcases Nat.lt_or_ge v.natAbs (2 ^ 53) with h | h
        · rw [roundMagnitude_small _ h]
          omega
        · have heq : v.natAbs = 2 ^ 53 := by omega
          rw [heq]
          have hr : roundMagnitude (2 ^ 53) = 2 ^ 53 := by decide
          rw [hr]
          omega
    rw [hfv, ← Int.cast_min]
    exact intOfFloat64_int _ (by omega) (by omega)
  · have hfv : (2 : Int) ^ 53 ≤ float64OfInt v := by
      unfold float64OfInt
      rw [if_pos (by omega)]
      have h := roundMagnitude_large v.natAbs (by omega) (by omega)
      exact_mod_cast h
    have hle : m ≤ float64OfInt v := le_trans hm2 hfv
    rw [← Int.cast_min, min_eq_right hle, min_eq_right (by omega)]
    exact intOfFloat64_int _ (by omega) (by omega)

/-- The value stored for an integer parameter inside the exact range is the
minimum of the requested value and the maximum. -/
theorem clampedValue_int_exact (o : OptMax) (v : Int) (hv : -2 ^ 53 ≤ v) (hv2 : v < 2 ^ 63) :
    (0 < o.MaxTokensMax → o.MaxTokensMax ≤ 2 ^ 53 →
      clampedValue o "max_tokens" (.int v) = some (.int (min v o.MaxTokensMax))) ∧
    (0 < o.TopKMax → o.TopKMax ≤ 2 ^ 53 →
      clampedValue o "top_k" (.int v) = some (.int (min v o.TopKMax))) := by
  constructor
  · intro hm hm2
    simp [clampedValue, hm, clamp_int_exact v _ hv hv2 hm hm2]
  · intro hm hm2
    simp [clampedValue, hm, clamp_int_exact v _ hv hv2 hm hm2]

/-- The value stored for a finite float parameter under a finite positive
maximum is the minimum of the requested value and the maximum. -/
theorem clampedValue_float_exact (o : OptMax) (v m : Rat) (hm : 0 < m)
    (ho : o.TemperatureMax = .fin m) :
    clampedValue o "temperature" (.float64 (.fin v)) = some (.float64 (.fin (min v m))) := by
  simp [clampedValue, ho, F64.gtZero, F64.lt, hm, mathMin_fin]

/-- C2 at a request the handler can decode: `max_tokens = -(2^53 + 1)` for
gpt-4o, whose maximum is 16380.  The value lies in the 64-bit range and below
the maximum, so the minimum is the value itself, yet the stored value is
`-2^53`, one above the requested value. -/
theorem ConfigOpt_max_tokens_raised :
    ConfigOpt [("max_tokens", .int (-9007199254740993))] gpt4o =
      some [("max_tokens", .int (-9007199254740992))] ∧
    (-2 ^ 63 ≤ (-9007199254740993 : Int) ∧ (-9007199254740993 : Int) < 2 ^ 63) ∧
    0 < gpt4o.OptMax.MaxTokensMax ∧
    min (-9007199254740993 : Int) gpt4o.OptMax.MaxTokensMax = -9007199254740993 ∧
    (-9007199254740993 : Int) < -9007199254740992 :=
  ⟨rfl, by decide, by decide, by decide, by decide⟩

/-! ## Theorems: request adapter -/

/-- C9 fails for a result that is present but has no entries: for gpt-4o and
an empty parameter map `ConfigOpt` returns the empty map, and the envelope
keeps that empty map as its config instead of the minimal configuration. -/
theorem PrepareChatRequest_empty_config_counterexample :
    ConfigOpt [] gpt4o = some [] ∧
    ∀ (uuidBytes : List Nat) (requestID : String) (request : ChatRequest),
      (PrepareChatRequest uuidBytes gpt4o requestID request (ConfigOpt [] gpt4o)).toOption.bind
          (fun e => e.Config) = some [] ∧
      (PrepareChatRequest uuidBytes gpt4o requestID request (ConfigOpt [] gpt4o)).toOption.bind
          (fun e => e.Config) ≠ some [("model", Dyn.str gpt4o.ID)] := by
  refine ⟨rfl, ?_⟩
  intro uuidBytes requestID request
  refine ⟨rfl, ?_⟩
  intro h
  have h2 : (some [] : Option (List (String × Dyn))) = some [("model", Dyn.str gpt4o.ID)] := h
  simp at h2

/-- C9 as amended: `PrepareChatRequest` never returns an error; when the
result of `ConfigOpt` is absent, which is the case exactly when all six maxima
of the model are zero, the config of the envelope is the minimal configuration
holding only the model id; when the result is present, its entries or lack of
entries are the config unchanged. -/
theorem PrepareChatRequest_config (uuidBytes : List Nat) (modelConfig : ModelConfig)
    (requestID : String) (request : ChatRequest) (params : List (String × Dyn)) :
    ∃ e, PrepareChatRequest uuidBytes modelConfig requestID request
          (ConfigOpt params modelConfig) = .ok e ∧
      (ConfigOpt params modelConfig = none ↔ modelConfig.OptMax.isZero = true) ∧
      (ConfigOpt params modelConfig = none →
        e.Config = some [("model", Dyn.str modelConfig.ID)]) ∧
      (∀ c, ConfigOpt params modelConfig = some c → e.Config = some c) := by
  refine ⟨_, rfl, ?_, ?_, ?_⟩
  · unfold ConfigOpt
    by_cases hz : modelConfig.OptMax.isZero = true <;> simp [hz]
  · intro h
    simp [h]
  · intro c h
    simp [h]

/-! ## Theorems: emulated stream -/

/-- The slice `s[lo:lo+k]` of a text that has at least `lo + k` bytes: it has
`k` bytes and continues the first `lo` bytes. -/
theorem byteSlice_spec (msg : List Nat) (lo k : Nat) (h : lo + k ≤ msg.length) :
    (byteSlice msg lo (lo + k)).length = k ∧
      msg.take (lo + k) = msg.take lo ++ byteSlice msg lo (lo + k) := by
  unfold byteSlice
  have hk : lo + k - lo = k := by omega
  rw [hk]
  constructor
  · rw [List.length_take, List.length_drop]
    omega
  · exact List.take_add msg lo k

/-- One iteration of the emission loop from a state whose cursor is inside the
text: it appends one event carrying the marshalled form of the next byte
slice, moves the cursor forward by the length of the slice, which is between 1
and 29, and marks the chunk
with the stop reason exactly when the cursor reaches the end; a chunk that
does not reach the end has at least 15 bytes. -/
theorem streamStep_spec (env : StreamEnv) (msg : List Nat) (model : String)
    (s : StreamState) (h : s.index < msg.length) :
    ∃ (chunk : List Nat) (reason : Option String),
      streamStep env msg model s =
        { index := s.index + chunk.length, iter := s.iter + 1,
          frames := s.frames ++
            [Frame.event (chunkEvent env model s.iter (jsonCoerce chunk) reason)] } ∧
      msg.take (s.index + chunk.length) = msg.take s.index ++ chunk ∧
      s.index + chunk.length ≤ msg.length ∧
      1 ≤ chunk.length ∧ chunk.length ≤ 29 ∧
      (s.index + chunk.length < msg.length → 15 ≤ chunk.length ∧ reason = none) ∧
      (s.index + chunk.length = msg.length → reason = some "stop") := by
  have hd : (env.Intn15 s.iter).val < 15 := (env.Intn15 s.iter).isLt
  by_cases hcut : s.index + ((env.Intn15 s.iter).val + 15) > msg.length
  · have hsz : s.index + (msg.length - s.index) ≤ msg.length := by omega
    obtain ⟨hlen, htake⟩ := byteSlice_spec msg s.index (msg.length - s.index) hsz
    refine ⟨byteSlice msg s.index (s.index + (msg.length - s.index)), some "stop", ?_,
      ?_, ?_, ?_, ?_, ?_, ?_⟩
    · unfold streamStep chunkEvent jsonMarshal
      simp only [hcut, if_true, hlen]
      have hge : s.index + (msg.length - s.index) ≥ msg.length := by omega
      simp only [hge, if_true]
      rfl
    · rw [hlen]; exact htake
    · rw [hlen]; exact hsz
    · rw [hlen]; omega
    · rw [hlen]; omega
    · rw [hlen]; intro hlt; omega
    · intro _; rfl
  · have hsz : s.index + ((env.Intn15 s.iter).val + 15) ≤ msg.length := by omega
    obtain ⟨hlen, htake⟩ := byteSlice_spec msg s.index ((env.Intn15 s.iter).val + 15) hsz
    refine ⟨byteSlice msg s.index (s.index + ((env.Intn15 s.iter).val + 15)),
      if s.index + ((env.Intn15 s.iter).val + 15) ≥ msg.length then some "stop" else none,
      ?_, ?_, ?_, ?_, ?_, ?_, ?_⟩
    · unfold streamStep chunkEvent jsonMarshal
      simp only [hcut, if_false, hlen]
      rfl
    · rw [hlen]; exact htake
    · rw [hlen]; exact hsz
    · rw [hlen]; omega
    · rw [hlen]; omega
    · rw [hlen]
      intro hlt
      have hnge : ¬ s.index + ((env.Intn15 s.iter).val + 15) ≥ msg.length := by omega
      simp only [hnge, if_false]
      exact ⟨by omega, trivial⟩
    · rw [hlen]
      intro heq
      have hge : s.index + ((env.Intn15 s.iter).val + 15) ≥ msg.length := by omega
      simp only [hge, if_true]

/-- The chunks after one more event. -/
theorem frameChunks_append_event (env : StreamEnv) (model : String) (iter : Nat)
    (frames : List Frame) (chunk : List Nat) (reason : Option String) :
    frameChunks (frames ++ [Frame.event (chunkEvent env model iter chunk reason)]) =
      frameChunks frames ++ [chunk] := by
  simp [frameChunks, chunkEvent]

/-- The finish reasons after one more event. -/
theorem frameFinishReasons_append_event (env : StreamEnv) (model : String) (iter : Nat)
    (frames : List Frame) (chunk : List Nat) (reason : Option String) :
    frameFinishReasons (frames ++ [Frame.event (chunkEvent env model iter chunk reason)]) =
      frameFinishReasons frames ++ [reason] := by
  simp [frameFinishReasons, chunkEvent]

/-- One iteration from a state that satisfies the loop invariant moves the
cursor strictly forward and either keeps the invariant with the cursor still
inside the text or reaches the final state. -/
theorem streamStep_invariant (env : StreamEnv) (msg : List Nat) (model : String)
    (s : StreamState) (hmid : StreamMid msg s) (h : s.index < msg.length) :
    s.index < (streamStep env msg model s).index ∧
      ((StreamMid msg (streamStep env msg model s) ∧
          (streamStep env msg model s).index < msg.length) ∨
        StreamFinal msg (streamStep env msg model s)) := by
  obtain ⟨chunk, reason, hstep, htake, hle, h1, h29, hnone, hstop⟩ :=
    streamStep_spec env msg model s h
  obtain ⟨_, hevents, slices, hch, hcat, hfull, hreasons⟩ := hmid
  rw [hstep]
  refine ⟨by simp only; omega, ?_⟩
  have hevents2 :
      ∀ f ∈ s.frames ++ [Frame.event (chunkEvent env model s.iter (jsonCoerce chunk) reason)],
        ∃ e, f = Frame.event e ∧ e.Choices.length = 1 := by
    intro f hf
    rcases List.mem_append.mp hf with hf1 | hf1
    · exact hevents f hf1
    · simp only [List.mem_singleton] at hf1
      exact ⟨_, hf1, rfl⟩
  have hch2 :
      frameChunks
          (s.frames ++ [Frame.event (chunkEvent env model s.iter (jsonCoerce chunk) reason)]) =
        (slices ++ [chunk]).map jsonCoerce := by
    rw [frameChunks_append_event, hch]
    simp
  have hcat2 : (slices ++ [chunk]).flatten = msg.take (s.index + chunk.length) := by
    rw [htake, ← hcat]
    simp
  by_cases hlt : s.index + chunk.length < msg.length
  · left
    obtain ⟨h15, hr⟩ := hnone hlt
    refine ⟨⟨hle, hevents2, slices ++ [chunk], hch2, hcat2, ?_, ?_⟩, hlt⟩
    · intro c hc
      rcases List.mem_append.mp hc with hc1 | hc1
      · exact hfull c hc1
      · simp only [List.mem_singleton] at hc1
        rw [hc1]; exact ⟨h15, h29⟩
    · simp only [frameFinishReasons_append_event, hreasons, hr,
        List.length_append, List.length_singleton, List.replicate_succ']
  · right
    have heq : s.index + chunk.length = msg.length := by omega
    refine ⟨heq, hevents2, slices, chunk, hch2, ?_, hfull, h1, h29, ?_⟩
    · rw [hcat2, heq, List.take_length]
    · simp only [frameFinishReasons_append_event, hreasons, hstop heq]

/-- The emission loop ends: with fuel for the bytes that remain it returns a
state, and that state is final. -/
theorem streamLoop_final (env : StreamEnv) (msg : List Nat) (model : String) (fuel : Nat) :
    ∀ s : StreamState, StreamMid msg s → s.index < msg.length →
      msg.length - s.index ≤ fuel →
      ∃ t, streamLoop env msg model fuel s = some t ∧ StreamFinal msg t := by
  induction fuel with
  | zero =>
    intro s _ h hfuel
    omega
  | succ fuel ih =>
    intro s hmid h hfuel
    obtain ⟨hadv, hnext⟩ := streamStep_invariant env msg model s hmid h
    simp only [streamLoop, h, if_true]
    rcases hnext with ⟨hmid2, hlt2⟩ | hfinal
    · exact ih _ hmid2 hlt2 (by omega)
    · refine ⟨streamStep env msg model s, ?_, hfinal⟩
      have hnot : ¬ (streamStep env msg model s).index < msg.length := by
        rw [hfinal.1]; omega
      cases fuel with
      | zero => simp only [streamLoop, hnot, if_false]
      | succ k => simp only [streamLoop, hnot, if_false]

/-- The frames of a non-empty text: the loop ends in a final state, and the
frames are the events of that state followed by the sentinel. -/
theorem handleStreamResponseGin_final (env : StreamEnv) (msg : List Nat) (model : String)
    (hne : msg ≠ []) :
    ∃ t, StreamFinal msg t ∧
      handleStreamResponseGin env msg model = some (t.frames ++ [doneFrame]) := by
  have hpos : 0 < msg.length := List.length_pos.mpr hne
  have hmid : StreamMid msg { index := 0, iter := 0, frames := [] } := by
    refine ⟨Nat.zero_le _, ?_, [], ?_, ?_, ?_, ?_⟩ <;> simp [frameChunks, frameFinishReasons]
  obtain ⟨t, ht, hfinal⟩ := streamLoop_final env msg model msg.length
    { index := 0, iter := 0, frames := [] } hmid hpos (by simp)
  exact ⟨t, hfinal, by simp [handleStreamResponseGin, ht]⟩

/-- The frames of an empty text: the sentinel alone. -/
theorem handleStreamResponseGin_nil (env : StreamEnv) (model : String) :
    handleStreamResponseGin env [] model = some [doneFrame] := by
  simp [handleStreamResponseGin, streamLoop]

/-- The chunks and finish reasons are those of the events; the sentinel adds
none. -/
theorem frameChunks_append_done (frames : List Frame) :
    frameChunks (frames ++ [doneFrame]) = frameChunks frames ∧
      frameFinishReasons (frames ++ [doneFrame]) = frameFinishReasons frames := by
  simp [frameChunks, frameFinishReasons, doneFrame]

/-- The total length of chunks whose lengths lie between two bounds. -/
theorem flatten_length_bounds (a b : Nat) (chunks : List (List Nat))
    (h : ∀ c ∈ chunks, a ≤ c.length ∧ c.length ≤ b) :
    a * chunks.length ≤ chunks.flatten.length ∧ chunks.flatten.length ≤ b * chunks.length := by
  induction chunks with
  | nil => simp
  | cons c rest ih =>
    have hc := h c (List.mem_cons_self _ _)
    have hrest := ih (fun x hx => h x (List.mem_cons_of_mem _ hx))
    simp only [List.flatten_cons, List.length_append, List.length_cons, Nat.mul_add, Nat.mul_one]
    omega


/-- The walk of the encoder at the first byte of a text. -/
theorem jsonCoerce_cons (b0 : Nat) (rest : List Nat) :
    jsonCoerce (b0 :: rest) =
      if b0 < 0x80 then b0 :: jsonCoerce rest
      else if 0xC2 ≤ b0 ∧ b0 ≤ 0xDF then
        match rest with
        | b1 :: r =>
          if utf8Cont b1 then b0 :: b1 :: jsonCoerce r
          else 0xEF :: 0xBF :: 0xBD :: jsonCoerce rest
        | _ => 0xEF :: 0xBF :: 0xBD :: jsonCoerce rest
      else if 0xE0 ≤ b0 ∧ b0 ≤ 0xEF then
        match rest with
        | b1 :: b2 :: r =>
          if utf8Cont b1 && utf8Cont b2 && (b0 != 0xE0 || 0xA0 ≤ b1) && (b0 != 0xED || b1 ≤ 0x9F)
          then b0 :: b1 :: b2 :: jsonCoerce r
          else 0xEF :: 0xBF :: 0xBD :: jsonCoerce rest
        | _ => 0xEF :: 0xBF :: 0xBD :: jsonCoerce rest
      else if 0xF0 ≤ b0 ∧ b0 ≤ 0xF4 then
        match rest with
        | b1 :: b2 :: b3 :: r =>
          if utf8Cont b1 && utf8Cont b2 && utf8Cont b3 && (b0 != 0xF0 || 0x90 ≤ b1) &&
              (b0 != 0xF4 || b1 ≤ 0x8F)
          then b0 :: b1 :: b2 :: b3 :: jsonCoerce r
          else 0xEF :: 0xBF :: 0xBD :: jsonCoerce rest
        | _ => 0xEF :: 0xBF :: 0xBD :: jsonCoerce rest
      else 0xEF :: 0xBF :: 0xBD :: jsonCoerce rest := by
  cases rest with
  | nil => rfl
  | cons b1 r1 =>
    cases r1 with
    | nil => rfl
    | cons b2 r2 =>
      cases r2 with
      | nil => rfl
      | cons b3 r3 => rfl

/-- The validity check at the first byte of a text. -/
theorem utf8Valid_cons (b0 : Nat) (rest : List Nat) :
    utf8Valid (b0 :: rest) =
      if b0 < 0x80 then utf8Valid rest
      else if 0xC2 ≤ b0 ∧ b0 ≤ 0xDF then
        match rest with
        | b1 :: r => utf8Cont b1 && utf8Valid r
        | _ => false
      else if 0xE0 ≤ b0 ∧ b0 ≤ 0xEF then
        match rest with
        | b1 :: b2 :: r =>
          utf8Cont b1 && utf8Cont b2 && (b0 != 0xE0 || 0xA0 ≤ b1) && (b0 != 0xED || b1 ≤ 0x9F) &&
            utf8Valid r
        | _ => false
      else if 0xF0 ≤ b0 ∧ b0 ≤ 0xF4 then
        match rest with
        | b1 :: b2 :: b3 :: r =>
          utf8Cont b1 && utf8Cont b2 && utf8Cont b3 && (b0 != 0xF0 || 0x90 ≤ b1) &&
            (b0 != 0xF4 || b1 ≤ 0x8F) && utf8Valid r
        | _ => false
      else false := by
  cases rest with
  | nil => rfl
  | cons b1 r1 =>
    cases r1 with
    | nil => rfl
    | cons b2 r2 =>
      cases r2 with
      | nil => rfl
      | cons b3 r3 => rfl

/-- The bytes of U+FFFD are a well-formed sequence. -/
theorem utf8Valid_replacement (l : List Nat) :
    utf8Valid (0xEF :: 0xBF :: 0xBD :: l) = utf8Valid l := by
  rw [utf8Valid_cons]
  simp [utf8Cont]

/-- The string denoted by a marshalled JSON text is well-formed UTF-8, shown
for the texts of at most `n` bytes. -/
theorem jsonCoerce_valid_aux (n : Nat) :
    ∀ l : List Nat, l.length ≤ n → utf8Valid (jsonCoerce l) = true := by
  induction n with
  | zero =>
    intro l hl
    have hnil : l = [] := List.length_eq_zero.mp (Nat.le_zero.mp hl)
    subst hnil
    rfl
  | succ n ih =>
    intro l hl
    match l, hl with
    | [], _ => rfl
    | b0 :: rest, hl =>
      have hrest : utf8Valid (jsonCoerce rest) = true :=
        ih rest (by simp only [List.length_cons] at hl; omega)
      have hrep : utf8Valid (0xEF :: 0xBF :: 0xBD :: jsonCoerce rest) = true := by
        rw [utf8Valid_replacement]; exact hrest
      rw [jsonCoerce_cons]
      split
      · rename_i h0
        rw [utf8Valid_cons]
        simp [h0, hrest]
      · rename_i h0
        split
        · rename_i h2
          split
          · rename_i b1 r
            have hr : utf8Valid (jsonCoerce r) = true :=
              ih r (by simp only [List.length_cons] at hl; omega)
            split
            · rename_i hc
              rw [utf8Valid_cons]
              simp [h0, h2, hc, hr]
            · exact hrep
          · exact hrep
        · rename_i h2
          split
          · rename_i h3
            split
            · rename_i b1 b2 r
              have hr : utf8Valid (jsonCoerce r) = true :=
                ih r (by simp only [List.length_cons] at hl; omega)
              split
              · rename_i hc
                rw [utf8Valid_cons]
                simp only [Bool.and_eq_true] at hc
                simp [h0, h2, h3, hc, hr]
              · exact hrep
            · exact hrep
          · rename_i h3
            split
            · rename_i h4
              split
              · rename_i b1 b2 b3 r
                have hr : utf8Valid (jsonCoerce r) = true :=
                  ih r (by simp only [List.length_cons] at hl; omega)
                split
                · rename_i hc
                  rw [utf8Valid_cons]
                  simp only [Bool.and_eq_true] at hc
                  simp [h0, h2, h3, h4, hc, hr]
                · exact hrep
              · exact hrep
            · exact hrep

/-- The string denoted by a marshalled JSON text is well-formed UTF-8. -/
theorem jsonCoerce_valid (l : List Nat) : utf8Valid (jsonCoerce l) = true :=
  jsonCoerce_valid_aux l.length l (le_refl _)

/-- A text of bytes below 0x80 is denoted unchanged. -/
theorem jsonCoerce_ascii (l : List Nat) (h : ∀ b ∈ l, b < 0x80) : jsonCoerce l = l := by
  induction l with
  | nil => rfl
  | cons b0 rest ih =>
    have h0 : b0 < 0x80 := h b0 (List.mem_cons_self _ _)
    rw [jsonCoerce_cons]
    simp only [h0, if_true]
    rw [ih (fun b hb => h b (List.mem_cons_of_mem _ hb))]

/-- The byte slices behind the chunks of a stream, for every completed text
and every sequence of random draws: the frames are produced, the chunks
written are the marshalled forms of consecutive byte slices that make up the
text, every slice except the last has 15 to 29 bytes, the last has 1 to 29
bytes, the number of chunks lies between ceil(n/29) and ceil(n/15), and every
iteration of the loop moves the cursor forward and not past the end of the
text. -/
theorem handleStreamResponseGin_slices (env : StreamEnv) (chatMessage : List Nat)
    (model : String) :
    ∃ (frames : List Frame) (slices : List (List Nat)),
      handleStreamResponseGin env chatMessage model = some frames ∧
      frameChunks frames = slices.map jsonCoerce ∧
      slices.flatten = chatMessage ∧
      (∀ c ∈ slices.dropLast, 15 ≤ c.length ∧ c.length ≤ 29) ∧
      (∀ c ∈ slices.getLast?, 1 ≤ c.length ∧ c.length ≤ 29) ∧
      (chatMessage.length + 28) / 29 ≤ (frameChunks frames).length ∧
      (frameChunks frames).length ≤ (chatMessage.length + 14) / 15 ∧
      ∀ s : StreamState, s.index < chatMessage.length →
        s.index < (streamStep env chatMessage model s).index ∧
          (streamStep env chatMessage model s).index ≤ chatMessage.length := by
  have hcursor : ∀ s : StreamState, s.index < chatMessage.length →
      s.index < (streamStep env chatMessage model s).index ∧
        (streamStep env chatMessage model s).index ≤ chatMessage.length := by
    intro s hs
    obtain ⟨chunk, reason, hstep, _, hle, h1, _⟩ := streamStep_spec env chatMessage model s hs
    rw [hstep]
    exact ⟨by simp only; omega, hle⟩
  by_cases hne : chatMessage = []
  · subst hne
    refine ⟨[doneFrame], [], handleStreamResponseGin_nil env model, ?_, ?_, ?_, ?_, ?_, ?_,
      hcursor⟩ <;> simp [frameChunks, doneFrame]
  · obtain ⟨t, hfinal, hres⟩ := handleStreamResponseGin_final env chatMessage model hne
    obtain ⟨_, _, init, last, hchunks, hcat, hinit, h1, h29, _⟩ := hfinal
    have hch : frameChunks (t.frames ++ [doneFrame]) = (init ++ [last]).map jsonCoerce := by
      rw [(frameChunks_append_done t.frames).1, hchunks]
    have hlen : chatMessage.length = init.flatten.length + last.length := by
      rw [← hcat]
      simp
    obtain ⟨hlo, hhi⟩ := flatten_length_bounds 15 29 init hinit
    refine ⟨_, init ++ [last], hres, hch, hcat, ?_, ?_, ?_, ?_, hcursor⟩
    · rw [List.dropLast_concat]
      exact hinit
    · rw [List.getLast?_concat]
      intro c hc
      simp only [Option.mem_def, Option.some.injEq] at hc
      rw [← hc]
      exact ⟨h1, h29⟩
    · rw [hch, List.length_map, List.length_append, List.length_singleton]
      omega
    · rw [hch, List.length_map, List.length_append, List.length_singleton]
      omega

/-- The stream of a text of bytes below 0x80: the chunks written are the byte
slices themselves, so they make up the text, every chunk except the last has
15 to 29 bytes and the last has 1 to 29 bytes. -/
theorem handleStreamResponseGin_ascii (env : StreamEnv) (chatMessage : List Nat)
    (model : String) (hascii : ∀ b ∈ chatMessage, b < 0x80) :
    ∃ frames, handleStreamResponseGin env chatMessage model = some frames ∧
      (frameChunks frames).flatten = chatMessage ∧
      ((frameChunks frames).map List.length).sum = chatMessage.length ∧
      (∀ c ∈ (frameChunks frames).dropLast, 15 ≤ c.length ∧ c.length ≤ 29) ∧
      (∀ c ∈ (frameChunks frames).getLast?, 1 ≤ c.length ∧ c.length ≤ 29) := by
  obtain ⟨frames, slices, hres, hch, hcat, hinit, hlast, _, _, _⟩ :=
    handleStreamResponseGin_slices env chatMessage model
  have hsame : slices.map jsonCoerce = slices := by
    conv_rhs => rw [← List.map_id slices]
    apply List.map_congr_left
    intro c hc
    apply jsonCoerce_ascii
    intro b hb
    apply hascii
    rw [← hcat]
    exact List.mem_flatten.mpr ⟨c, hc, hb⟩
  rw [hsame] at hch
  refine ⟨frames, hres, ?_, ?_, ?_, ?_⟩
  · rw [hch]; exact hcat
  · rw [← List.length_flatten, hch, hcat]
  · rw [hch]; exact hinit
  · rw [hch]; exact hlast

/-- C4 at the text of fourteen `a` and one U+00E9 (16 bytes of well-formed
UTF-8) with the chunk size 15: the first slice ends with the first byte of
the two-byte character, and the chunks written hold U+FFFD for each of its
bytes; they have 17 and 3 bytes, 20 in all, and do not make up the text. -/
theorem handleStreamResponseGin_chunks_corrupted :
    utf8Valid (utf8Bytes "aaaaaaaaaaaaaaé") = true ∧
    (utf8Bytes "aaaaaaaaaaaaaaé").length = 16 ∧
    (handleStreamResponseGin size15Env (utf8Bytes "aaaaaaaaaaaaaaé") "gpt-4o").map frameChunks =
      some [List.replicate 14 97 ++ [0xEF, 0xBF, 0xBD], [0xEF, 0xBF, 0xBD]] ∧
    (handleStreamResponseGin size15Env (utf8Bytes "aaaaaaaaaaaaaaé") "gpt-4o").map
        (fun frames => (frameChunks frames).flatten) ≠ some (utf8Bytes "aaaaaaaaaaaaaaé") ∧
    (handleStreamResponseGin size15Env (utf8Bytes "aaaaaaaaaaaaaaé") "gpt-4o").map
        (fun frames => ((frameChunks frames).map List.length).sum) = some 20 := by
  refine ⟨?_, ?_, ?_, ?_, ?_⟩ <;> decide

/-- C5 at the text of twenty-eight `a` and one U+00E9 (30 bytes) with the
chunk size 29: two chunks are written, and the first, which is not the last,
has 31 bytes, because the first byte of the two-byte character at the end of
its slice is written as the three bytes of U+FFFD. -/
theorem handleStreamResponseGin_chunk_too_long :
    (utf8Bytes "aaaaaaaaaaaaaaaaaaaaaaaaaaaaé").length = 30 ∧
    (handleStreamResponseGin size29Env (utf8Bytes "aaaaaaaaaaaaaaaaaaaaaaaaaaaaé") "gpt-4o").map
        (fun frames => (frameChunks frames).map List.length) = some [31, 3] := by
  refine ⟨?_, ?_⟩ <;> decide

/-- C6: for every non-empty completed text and every sequence of random draws
the frames are produced; the last frame is the sentinel, which occurs once;
every frame before it is a chunk event with one choice; and the finish reasons
of the chunk events, in emission order, are null for all but the last event
and the stop reason for the last. -/
theorem handleStreamResponseGin_finish (env : StreamEnv) (chatMessage : List Nat)
    (model : String) (hne : chatMessage ≠ []) :
    ∃ frames, handleStreamResponseGin env chatMessage model = some frames ∧
      frames.getLast? = some (Frame.raw "data: [DONE]\n\n") ∧
      frames.count (Frame.raw "data: [DONE]\n\n") = 1 ∧
      (∀ f ∈ frames.dropLast, ∃ e, f = Frame.event e ∧ e.Choices.length = 1) ∧
      ∃ k, frames.length = k + 2 ∧
        frameFinishReasons frames = List.replicate k none ++ [some "stop"] := by
  obtain ⟨t, hfinal, hres⟩ := handleStreamResponseGin_final env chatMessage model hne
  obtain ⟨_, hevents, init, last, hchunks, _, _, _, _, hreasons⟩ := hfinal
  have hnotmem : doneFrame ∉ t.frames := by
    intro hmem
    obtain ⟨e, he, _⟩ := hevents _ hmem
    simp [doneFrame] at he
  have hcount : ∀ fs : List Frame,
      (∀ f ∈ fs, ∃ e, f = Frame.event e ∧ e.Choices.length = 1) →
        fs.length = (frameChunks fs).length := by
    intro fs
    induction fs with
    | nil => intro _; simp [frameChunks]
    | cons f rest ih =>
      intro hall
      obtain ⟨e, he, hone⟩ := hall f (List.mem_cons_self _ _)
      have hrest := ih (fun x hx => hall x (List.mem_cons_of_mem _ hx))
      subst he
      simp only [frameChunks, List.flatMap_cons, List.length_append, List.length_map,
        List.length_cons, hone] at hrest ⊢
      omega
  refine ⟨_, hres, ?_, ?_, ?_, init.length, ?_, ?_⟩
  · exact List.getLast?_concat _
  · change (t.frames ++ [doneFrame]).count doneFrame = 1
    rw [List.count_append, List.count_eq_zero_of_not_mem hnotmem]
    simp
  · rw [List.dropLast_concat]
    exact hevents
  · rw [List.length_append, List.length_singleton, hcount t.frames hevents, hchunks]
    simp
  · rw [(frameChunks_append_done t.frames).2, hreasons]

/-- C6 at a text of 40 bytes with the sample draws: three chunk events, of
which only the last carries the stop reason, then the sentinel. -/
theorem handleStreamResponseGin_finish_witness :
    (handleStreamResponseGin sampleEnv (List.range 40) "gpt-4o").map frameFinishReasons =
      some [none, none, some "stop"] ∧
    ∃ frames, handleStreamResponseGin sampleEnv (List.range 40) "gpt-4o" = some frames ∧
      frames.getLast? = some (Frame.raw "data: [DONE]\n\n") ∧
      frames.count (Frame.raw "data: [DONE]\n\n") = 1 ∧
      (∀ f ∈ frames.dropLast, ∃ e, f = Frame.event e ∧ e.Choices.length = 1) ∧
      ∃ k, frames.length = k + 2 ∧
        frameFinishReasons frames = List.replicate k none ++ [some "stop"] :=
  ⟨by decide, handleStreamResponseGin_finish sampleEnv (List.range 40) "gpt-4o" (by decide)⟩

/-! ## Theorems: identifier generation -/

/-- A list of `n + 1` elements is a head followed by `n` elements. -/
theorem cons_of_length_succ {α : Type} (l : List α) (n : Nat) (h : l.length = n + 1) :
    ∃ x t, l = x :: t ∧ t.length = n := by
  cases l with
  | nil => simp at h
  | cons x t => exact ⟨x, t, rfl, by simpa using h⟩

/-- The characters of the identifier rendered from sixteen bytes. -/
theorem GenerateUUID_data (b0 b1 b2 b3 b4 b5 b6 b7 b8 b9 b10 b11 b12 b13 b14 b15 : Nat) :
    (GenerateUUID [b0, b1, b2, b3, b4, b5, b6, b7, b8, b9, b10, b11, b12, b13, b14, b15]).data =
      hexByte b0 ++ hexByte b1 ++ hexByte b2 ++ hexByte b3 ++ '-' ::
        (hexByte b4 ++ hexByte b5 ++ '-' ::
          (hexByte ((b6 &&& 0x0f) ||| 0x40) ++ hexByte b7 ++ '-' ::
            (hexByte ((b8 &&& 0x3f) ||| 0x80) ++ hexByte b9 ++ '-' ::
              (hexByte b10 ++ hexByte b11 ++ hexByte b12 ++ hexByte b13 ++
                hexByte b14 ++ hexByte b15)))) := by
  rfl

set_option maxRecDepth 100000 in
/-- The version and variant masks on a byte: the high digit becomes 4, or 8
plus bits 5 and 4 of the byte, and the low digit is kept. -/
theorem uuid_mask_byte : ∀ x : Nat, x < 256 →
    ((x &&& 0x0f) ||| 0x40) / 16 = 4 ∧ ((x &&& 0x0f) ||| 0x40) % 16 = x % 16 ∧
    ((x &&& 0x3f) ||| 0x80) / 16 = 8 + x / 16 % 4 ∧
    ((x &&& 0x3f) ||| 0x80) % 16 = x % 16 := by
  decide

/-- The digit printed for a value below 16 is a lower-case hexadecimal
digit. -/
theorem digitChar_lowerHex : ∀ d : Nat, d < 16 → Nat.digitChar d ∈ lowerHexDigits := by
  decide

/-- The two digits printed for a byte are lower-case hexadecimal digits. -/
theorem hexByte_lowerHex (x : Nat) (hx : x < 256) : ∀ c ∈ hexByte x, c ∈ lowerHexDigits := by
  intro c hc
  simp only [hexByte, List.mem_cons, List.mem_singleton, List.not_mem_nil, or_false] at hc
  rcases hc with h | h
  · rw [h]; exact digitChar_lowerHex _ (by omega)
  · rw [h]; exact digitChar_lowerHex _ (by omega)

/-- C10: the identifier rendered from any 16 bytes has 36 characters: five
groups of 8, 4, 4, 4 and 12 lower-case hexadecimal digits separated by single
dashes, two digits per byte; the third group starts with 4 and the fourth
with 8, 9, a or b; every other digit is that of the input bytes (the fourth
group keeps bits 5 and 4 of its first byte in its first digit). -/
theorem GenerateUUID_format (b : List Nat) (hlen : b.length = 16) (hb : ∀ x ∈ b, x < 256) :
    (GenerateUUID b).length = 36 ∧
    ∃ g1 g2 g3 g4 g5 : List Char,
      (GenerateUUID b).data = g1 ++ '-' :: (g2 ++ '-' :: (g3 ++ '-' :: (g4 ++ '-' :: g5))) ∧
      g1.length = 8 ∧ g2.length = 4 ∧ g3.length = 4 ∧ g4.length = 4 ∧ g5.length = 12 ∧
      (∀ c ∈ g1 ++ g2 ++ g3 ++ g4 ++ g5, c ∈ lowerHexDigits) ∧
      g3.head? = some '4' ∧
      (g4.head? = some '8' ∨ g4.head? = some '9' ∨ g4.head? = some 'a' ∨
        g4.head? = some 'b') ∧
      g1 = (byteSlice b 0 4).flatMap hexByte ∧
      g2 = (byteSlice b 4 6).flatMap hexByte ∧
      g3 = '4' :: Nat.digitChar (b.getD 6 0 % 16) :: hexByte (b.getD 7 0) ∧
      g4 = Nat.digitChar (8 + b.getD 8 0 / 16 % 4) :: Nat.digitChar (b.getD 8 0 % 16) ::
        hexByte (b.getD 9 0) ∧
      g5 = (b.drop 10).flatMap hexByte := by
  obtain ⟨b0, t0, rfl, hl0⟩ := cons_of_length_succ b 15 hlen
  obtain ⟨b1, t1, rfl, hl1⟩ := cons_of_length_succ t0 14 hl0
  obtain ⟨b2, t2, rfl, hl2⟩ := cons_of_length_succ t1 13 hl1
  obtain ⟨b3, t3, rfl, hl3⟩ := cons_of_length_succ t2 12 hl2
  obtain ⟨b4, t4, rfl, hl4⟩ := cons_of_length_succ t3 11 hl3
  obtain ⟨b5, t5, rfl, hl5⟩ := cons_of_length_succ t4 10 hl4
  obtain ⟨b6, t6, rfl, hl6⟩ := cons_of_length_succ t5 9 hl5
  obtain ⟨b7, t7, rfl, hl7⟩ := cons_of_length_succ t6 8 hl6
  obtain ⟨b8, t8, rfl, hl8⟩ := cons_of_length_succ t7 7 hl7
  obtain ⟨b9, t9, rfl, hl9⟩ := cons_of_length_succ t8 6 hl8
  obtain ⟨b10, t10, rfl, hl10⟩ := cons_of_length_succ t9 5 hl9
  obtain ⟨b11, t11, rfl, hl11⟩ := cons_of_length_succ t10 4 hl10
  obtain ⟨b12, t12, rfl, hl12⟩ := cons_of_length_succ t11 3 hl11
  obtain ⟨b13, t13, rfl, hl13⟩ := cons_of_length_succ t12 2 hl12
  obtain ⟨b14, t14, rfl, hl14⟩ := cons_of_length_succ t13 1 hl13
  obtain ⟨b15, t15, rfl, hl15⟩ := cons_of_length_succ t14 0 hl14
  have hnil : t15 = [] := List.length_eq_zero.mp hl15
  subst hnil
  simp only [List.mem_cons, List.mem_singleton, List.not_mem_nil, or_false,
    forall_eq_or_imp, forall_eq] at hb
  obtain ⟨h0, h1, h2, h3, h4, h5, h6, h7, h8, h9, h10, h11, h12, h13, h14, h15⟩ := hb
  obtain ⟨m6hi, m6lo, _, _⟩ := uuid_mask_byte b6 h6
  obtain ⟨_, _, m8hi, m8lo⟩ := uuid_mask_byte b8 h8
  have hdata := GenerateUUID_data b0 b1 b2 b3 b4 b5 b6 b7 b8 b9 b10 b11 b12 b13 b14 b15
  have hg3 : hexByte ((b6 &&& 0x0f) ||| 0x40) = ['4', Nat.digitChar (b6 % 16)] := by
    simp only [hexByte, m6hi, m6lo]
    rfl
  have hg4 : hexByte ((b8 &&& 0x3f) ||| 0x80) =
      [Nat.digitChar (8 + b8 / 16 % 4), Nat.digitChar (b8 % 16)] := by
    simp only [hexByte, m8hi, m8lo]
  rw [hg3, hg4] at hdata
  refine ⟨?_, hexByte b0 ++ hexByte b1 ++ hexByte b2 ++ hexByte b3,
    hexByte b4 ++ hexByte b5,
    '4' :: Nat.digitChar (b6 % 16) :: hexByte b7,
    Nat.digitChar (8 + b8 / 16 % 4) :: Nat.digitChar (b8 % 16) :: hexByte b9,
    hexByte b10 ++ hexByte b11 ++ hexByte b12 ++ hexByte b13 ++ hexByte b14 ++ hexByte b15,
    ?_, ?_, ?_, ?_, ?_, ?_, ?_, ?_, ?_, ?_, ?_, ?_, ?_, ?_⟩
  · have hl : (GenerateUUID [b0, b1, b2, b3, b4, b5, b6, b7, b8, b9, b10, b11, b12, b13, b14, b15]).length
        = (GenerateUUID [b0, b1, b2, b3, b4, b5, b6, b7, b8, b9, b10, b11, b12, b13, b14, b15]).data.length := rfl
    rw [hl, hdata]
    simp [hexByte]
  · rw [hdata]
    simp
  · simp [hexByte]
  · simp [hexByte]
  · simp [hexByte]
  · simp [hexByte]
  · simp [hexByte]
  · intro c hc
    simp only [List.mem_append, List.mem_cons, List.mem_singleton] at hc
    have hd6 : Nat.digitChar (b6 % 16) ∈ lowerHexDigits := digitChar_lowerHex _ (by omega)
    have hd8 : Nat.digitChar (b8 % 16) ∈ lowerHexDigits := digitChar_lowerHex _ (by omega)
    have hd8hi : Nat.digitChar (8 + b8 / 16 % 4) ∈ lowerHexDigits :=
      digitChar_lowerHex _ (by omega)
    have hd4 : '4' ∈ lowerHexDigits := by decide
    simp only [or_assoc] at hc
    rcases hc with hc | hc | hc | hc | hc | hc | hc | hc | hc | hc | hc | hc | hc | hc | hc |
      hc | hc | hc
    · exact hexByte_lowerHex b0 h0 c hc
    · exact hexByte_lowerHex b1 h1 c hc
    · exact hexByte_lowerHex b2 h2 c hc
    · exact hexByte_lowerHex b3 h3 c hc
    · exact hexByte_lowerHex b4 h4 c hc
    · exact hexByte_lowerHex b5 h5 c hc
    · rw [hc]; exact hd4
    · rw [hc]; exact hd6
    · exact hexByte_lowerHex b7 h7 c hc
    · rw [hc]; exact hd8hi
    · rw [hc]; exact hd8
    · exact hexByte_lowerHex b9 h9 c hc
    · exact hexByte_lowerHex b10 h10 c hc
    · exact hexByte_lowerHex b11 h11 c hc
    · exact hexByte_lowerHex b12 h12 c hc
    · exact hexByte_lowerHex b13 h13 c hc
    · exact hexByte_lowerHex b14 h14 c hc
    · exact hexByte_lowerHex b15 h15 c hc
  · rfl
  · have hlt : b8 / 16 % 4 < 4 := Nat.mod_lt _ (by decide)
    simp only [List.head?_cons, Option.some.injEq]
    interval_cases (b8 / 16 % 4)
    · left; rfl
    · right; left; rfl
    · right; right; left; rfl
    · right; right; right; rfl
  · simp [byteSlice]
  · simp [byteSlice]
  · rfl
  · rfl
  · simp

/-- C10 at the bytes 0, 1, ..., 15. -/
theorem GenerateUUID_format_witness :
    GenerateUUID (List.range 16) = "00010203-0405-4607-8809-0a0b0c0d0e0f" ∧
    (GenerateUUID (List.range 16)).length = 36 :=
  ⟨by decide, (GenerateUUID_format (List.range 16) (by decide) (by decide)).1⟩

/-! ## Theorems: upstream reply -/

/-- The first character left by `dropWhile` does not satisfy the test. -/
theorem dropWhile_head_not (p : Char → Bool) (l : List Char) (c : Char)
    (h : (l.dropWhile p).head? = some c) : p c = false := by
  induction l with
  | nil => simp at h
  | cons x xs ih =>
    by_cases hx : p x = true
    · rw [List.dropWhile_cons_of_pos hx] at h
      exact ih h
    · rw [List.dropWhile_cons_of_neg hx] at h
      simp only [List.head?_cons, Option.some.injEq] at h
      rw [← h]
      simpa using hx

/-- What `strings.TrimSpace` returns: the text is white space, then the
result, then white space, and the result neither starts nor ends with white
space. -/
theorem stringsTrimSpace_spec (s : String) :
    ∃ pre suf : List Char,
      s.data = pre ++ (stringsTrimSpace s).data ++ suf ∧
      (∀ c ∈ pre, unicodeIsSpace c = true) ∧
      (∀ c ∈ suf, unicodeIsSpace c = true) ∧
      (∀ c, (stringsTrimSpace s).data.head? = some c → unicodeIsSpace c = false) ∧
      (∀ c, (stringsTrimSpace s).data.getLast? = some c → unicodeIsSpace c = false) := by
  have hm : (s.data.dropWhile unicodeIsSpace) =
      ((s.data.dropWhile unicodeIsSpace).reverse.dropWhile unicodeIsSpace).reverse ++
        ((s.data.dropWhile unicodeIsSpace).reverse.takeWhile unicodeIsSpace).reverse := by
    rw [← List.reverse_append, List.takeWhile_append_dropWhile, List.reverse_reverse]
  refine ⟨s.data.takeWhile unicodeIsSpace,
    ((s.data.dropWhile unicodeIsSpace).reverse.takeWhile unicodeIsSpace).reverse, ?_, ?_, ?_,
    ?_, ?_⟩
  · show s.data = s.data.takeWhile unicodeIsSpace ++
        ((s.data.dropWhile unicodeIsSpace).reverse.dropWhile unicodeIsSpace).reverse ++
        ((s.data.dropWhile unicodeIsSpace).reverse.takeWhile unicodeIsSpace).reverse
    rw [List.append_assoc, ← hm, List.takeWhile_append_dropWhile]
  · intro c hc
    exact List.mem_takeWhile_imp hc
  · intro c hc
    exact List.mem_takeWhile_imp (List.mem_reverse.mp hc)
  · intro c hc
    have hc2 : (((s.data.dropWhile unicodeIsSpace).reverse.dropWhile
        unicodeIsSpace).reverse).head? = some c := hc
    have hne : ((s.data.dropWhile unicodeIsSpace).reverse.dropWhile unicodeIsSpace).reverse
        ≠ [] := by
      intro hnil
      rw [hnil] at hc2
      simp at hc2
    have hhead : (s.data.dropWhile unicodeIsSpace).head? = some c := by
      rw [hm, List.head?_append_of_ne_nil _ hne]
      exact hc2
    exact dropWhile_head_not unicodeIsSpace s.data c hhead
  · intro c hc
    have hc2 : (((s.data.dropWhile unicodeIsSpace).reverse.dropWhile
        unicodeIsSpace).reverse).getLast? = some c := hc
    rw [List.getLast?_reverse] at hc2
    exact dropWhile_head_not unicodeIsSpace _ c hc2

/-- C11: the text selected from an upstream reply is the trimmed `code` when
that is not empty and the trimmed `text` otherwise, where the trimmed form of
a text is the text without the white space at its two ends; the handler ends
in the server-error branch, with no completion or stream, exactly when both
trimmed fields are empty, and otherwise hands the selected text to the
response function of the requested mode; for the reply with an empty `code`
and the `text` "hello" in immediate mode, and likewise for a `code` of white
space only and the `text` "hello" inside white space, the completion holds one
choice whose message has the role assistant and the content "hello", with
finish reason "stop"; a `code` "ok" inside white space is selected as "ok",
and the white space removed is that of Unicode, U+200B not being white
space. -/
theorem handleChatRequestGinReply_selects (env : StreamEnv) (chatRequest : ChatRequest)
    (e2bResponse : E2BResponse) :
    (selectChatMessage e2bResponse =
      if stringsTrimSpace e2bResponse.Code ≠ "" then stringsTrimSpace e2bResponse.Code
      else stringsTrimSpace e2bResponse.Text) ∧
    ((∃ status errorType message,
        handleChatRequestGinReply env chatRequest e2bResponse =
          .serverError status errorType message) ↔
      (stringsTrimSpace e2bResponse.Code = "" ∧ stringsTrimSpace e2bResponse.Text = "")) ∧
    (stringsTrimSpace e2bResponse.Code = "" ∧ stringsTrimSpace e2bResponse.Text = "" →
      handleChatRequestGinReply env chatRequest e2bResponse =
        .serverError 500 "server_error"
          ("未从上游服务获取到响应" ++ " 请求失败，可能是上下文超出限制或其他错误，请稍后重试。")) ∧
    (selectChatMessage e2bResponse ≠ "" →
      handleChatRequestGinReply env chatRequest e2bResponse =
        if chatRequest.Stream then
          .stream (handleStreamResponseGin env (utf8Bytes (selectChatMessage e2bResponse))
            chatRequest.Model)
        else
          handleNormalResponseGin (env.uuidBytes 0) (env.nowUnix 0)
            (selectChatMessage e2bResponse) chatRequest.Model) ∧
    (chatRequest.Stream = false →
      handleChatRequestGinReply env chatRequest { Code := "", Text := "hello" } =
        .completion 200
          { ID := GenerateUUID (env.uuidBytes 0)
            Object := "chat.completion"
            Created := env.nowUnix 0
            Model := chatRequest.Model
            Choices :=
              [{ Index := 0
                 Message := { Role := "assistant", Content := .str "hello" }
                 Delta := .null
                 FinishReason := "stop" }]
            Usage := .null }) ∧
    (∀ s : String, ∃ pre suf : List Char,
      s.data = pre ++ (stringsTrimSpace s).data ++ suf ∧
      (∀ c ∈ pre, unicodeIsSpace c = true) ∧
      (∀ c ∈ suf, unicodeIsSpace c = true) ∧
      (∀ c, (stringsTrimSpace s).data.head? = some c → unicodeIsSpace c = false) ∧
      (∀ c, (stringsTrimSpace s).data.getLast? = some c → unicodeIsSpace c = false)) ∧
    (chatRequest.Stream = false →
      handleChatRequestGinReply env chatRequest
          { Code := " \n\t", Text := "\t hello \r\n" } =
        .completion 200
          { ID := GenerateUUID (env.uuidBytes 0)
            Object := "chat.completion"
            Created := env.nowUnix 0
            Model := chatRequest.Model
            Choices :=
              [{ Index := 0
                 Message := { Role := "assistant", Content := .str "hello" }
                 Delta := .null
                 FinishReason := "stop" }]
            Usage := .null }) ∧
    selectChatMessage { Code := "  ok \n", Text := "hello" } = "ok" ∧
    selectChatMessage
        { Code := "\u3000\u0085\u00a0\u1680\u2000\u200a\u2028\u2029\u202f\u205f\x0b\x0c",
          Text := "\u2003ok\u200b \u3000" } = "ok\u200b" := by
  have hsel : selectChatMessage e2bResponse =
      if stringsTrimSpace e2bResponse.Code ≠ "" then stringsTrimSpace e2bResponse.Code
      else stringsTrimSpace e2bResponse.Text := by
    unfold selectChatMessage
    by_cases h : stringsTrimSpace e2bResponse.Code = "" <;> simp [h]
  have hreply : handleChatRequestGinReply env chatRequest e2bResponse =
      if selectChatMessage e2bResponse = "" then handleInternalErrorGin "未从上游服务获取到响应"
      else if chatRequest.Stream then
        .stream (handleStreamResponseGin env (utf8Bytes (selectChatMessage e2bResponse))
          chatRequest.Model)
      else
        handleNormalResponseGin (env.uuidBytes 0) (env.nowUnix 0)
          (selectChatMessage e2bResponse) chatRequest.Model := rfl
  have hempty : selectChatMessage e2bResponse = "" ↔
      (stringsTrimSpace e2bResponse.Code = "" ∧ stringsTrimSpace e2bResponse.Text = "") := by
    rw [hsel]
    by_cases h : stringsTrimSpace e2bResponse.Code = "" <;> simp [h]
  refine ⟨hsel, ?_, ?_, ?_, ?_, stringsTrimSpace_spec, ?_, by decide, by decide⟩
  · rw [hreply, ← hempty]
    constructor
    · rintro ⟨status, errorType, message, h⟩
      by_contra hne
      rw [if_neg hne] at h
      cases hs : chatRequest.Stream
      · rw [hs] at h
        simp [handleNormalResponseGin] at h
      · rw [hs] at h
        simp at h
    · intro h
      rw [if_pos h]
      exact ⟨_, _, _, rfl⟩
  · intro h
    rw [hreply, if_pos (hempty.mpr h)]
    rfl
  · intro h
    rw [hreply, if_neg h]
  · intro hs
    have h1 : stringsTrimSpace "" = "" := by decide
    have h2 : stringsTrimSpace "hello" = "hello" := by decide
    simp [handleChatRequestGinReply, h1, h2, hs, handleNormalResponseGin]
  · intro hs
    have h1 : stringsTrimSpace " \n\t" = "" := by decide
    have h2 : stringsTrimSpace "\t hello \r\n" = "hello" := by decide
    simp [handleChatRequestGinReply, h1, h2, hs, handleNormalResponseGin]

/-! ## Theorems: empty turns -/

/-- A turn with an empty text leaves the kept sequence as it is. -/
theorem mergeStep_empty (acc : List ChatMessage) (current : ChatMessage)
    (h : ProcessMessageContent current.Content = "") : mergeStep acc current = acc := by
  unfold mergeStep
  simp [h]

/-- The merge loop gives the same sequence on the input without its turns of
empty text. -/
theorem foldl_mergeStep_filter (messages : List ChatMessage) :
    ∀ acc : List ChatMessage,
      messages.foldl mergeStep acc =
        (messages.filter (fun m => decide (ProcessMessageContent m.Content ≠ ""))).foldl
          mergeStep acc := by
  induction messages with
  | nil => intro acc; rfl
  | cons x xs ih =>
    intro acc
    by_cases hx : ProcessMessageContent x.Content = ""
    · simp only [List.foldl_cons, mergeStep_empty acc x hx]
      rw [List.filter_cons_of_neg (by simp [hx])]
      exact ih acc
    · rw [List.filter_cons_of_pos (by simp [hx])]
      simp only [List.foldl_cons]
      exact ih _

/-- C12: `TransformMessages` returns on every input what it returns on the
input without its turns of empty extracted text; so an input whose turns all
have an empty text yields the empty sequence, and user "a", assistant "",
user "b" yields the single user turn "a\nb". -/
theorem TransformMessages_drops_empty (messages : List ChatMessage) :
    TransformMessages messages =
      TransformMessages
        (messages.filter (fun m => decide (ProcessMessageContent m.Content ≠ ""))) ∧
    ((∀ m ∈ messages, ProcessMessageContent m.Content = "") →
      TransformMessages messages = []) ∧
    TransformMessages
        [{ Role := "user", Content := .str "a" }, { Role := "assistant", Content := .str "" },
         { Role := "user", Content := .str "b" }] =
      [{ Role := "user", Content := .blocks [{ Typ := "text", Text := "a\nb" }] }] := by
  have hfilter : TransformMessages messages =
      TransformMessages
        (messages.filter (fun m => decide (ProcessMessageContent m.Content ≠ ""))) := by
    rw [TransformMessages_eq_map, TransformMessages_eq_map]
    unfold mergedMessages
    rw [foldl_mergeStep_filter messages []]
  refine ⟨hfilter, ?_, rfl⟩
  intro hall
  have hnil : messages.filter (fun m => decide (ProcessMessageContent m.Content ≠ "")) = [] := by
    rw [List.filter_eq_nil_iff]
    intro m hm
    simp [hall m hm]
  rw [hfilter, hnil]
  rfl

/-! ## Theorems: the parameter map of the handler -/

/-- An iteration of `ConfigOpt` on another key leaves the entry of a key as
it is. -/
theorem configStep_lookup_other (modelConfig : ModelConfig) (acc : List (String × Dyn))
    (k : String) (value : Dyn) (key : String) (hne : key ≠ k) :
    (configStep modelConfig acc (k, value)).lookup key = acc.lookup key := by
  rw [configStep_eq]
  cases clampedValue modelConfig.OptMax k value with
  | none => rfl
  | some v => simp [lookup_mapSet, hne]

/-- The loop of `ConfigOpt` leaves the entry of a key that the parameter map
does not hold as it is. -/
theorem foldl_configStep_lookup_absent (modelConfig : ModelConfig)
    (params : List (String × Dyn)) (key : String) (habs : key ∉ params.map Prod.fst) :
    ∀ acc : List (String × Dyn),
      (params.foldl (configStep modelConfig) acc).lookup key = acc.lookup key := by
  induction params with
  | nil => intro acc; rfl
  | cons e rest ih =>
    intro acc
    obtain ⟨k, x⟩ := e
    simp only [List.map_cons, List.mem_cons, not_or] at habs
    simp only [List.foldl_cons]
    rw [ih habs.2, configStep_lookup_other modelConfig acc k x key habs.1]

/-- The value that the loop of `ConfigOpt` stores for a key of a parameter map
(keys are distinct in a map): the clamped value of its entry. -/
theorem foldl_configStep_lookup_value (modelConfig : ModelConfig)
    (params : List (String × Dyn)) (hnodup : (params.map Prod.fst).Nodup) (key : String)
    (value v : Dyn) (hmem : (key, value) ∈ params)
    (hv : clampedValue modelConfig.OptMax key value = some v) :
    ∀ acc : List (String × Dyn),
      (params.foldl (configStep modelConfig) acc).lookup key = some v := by
  induction params with
  | nil => simp at hmem
  | cons e rest ih =>
    intro acc
    obtain ⟨k, x⟩ := e
    simp only [List.map_cons, List.nodup_cons] at hnodup
    simp only [List.foldl_cons]
    rcases List.mem_cons.mp hmem with heq | hrest
    · simp only [Prod.mk.injEq] at heq
      obtain ⟨hk, hx⟩ := heq
      subst hk hx
      rw [foldl_configStep_lookup_absent modelConfig rest key hnodup.1, configStep_eq, hv]
      simp [lookup_mapSet]
    · exact ih hnodup.2 hrest _

/-- C13: the parameter map that the handler builds from a decoded request
holds each of the six keys with a number of the kind of that parameter, 0 for
a parameter that the body leaves out; so for every request, every order in
which the map is visited and every model whose six maxima are positive, the
result of `ConfigOpt` is present with exactly the six keys, it is the config
of the upstream envelope, and a body without temperature gets the entry
temperature = 0. -/
theorem handleChatRequestGin_params (body : RequestBody) (modelConfig : ModelConfig)
    (params : List (String × Dyn)) (uuidBytes : List Nat) (requestID : String)
    (hperm : params.Perm (handleChatRequestGinParams (decodeChatRequest body)))
    (hT : modelConfig.OptMax.TemperatureMax.gtZero = true)
    (hM : 0 < modelConfig.OptMax.MaxTokensMax)
    (hP : modelConfig.OptMax.PresencePenaltyMax.gtZero = true)
    (hF : modelConfig.OptMax.FrequencyPenaltyMax.gtZero = true)
    (hTP : modelConfig.OptMax.TopPMax.gtZero = true)
    (hK : 0 < modelConfig.OptMax.TopKMax) :
    (∃ t m p f tp k,
      handleChatRequestGinParams (decodeChatRequest body) =
        [("temperature", .float64 t), ("max_tokens", .int m), ("presence_penalty", .float64 p),
         ("frequency_penalty", .float64 f), ("top_p", .float64 tp), ("top_k", .int k)] ∧
      (body.temperature = none → t = .fin 0) ∧ (body.max_tokens = none → m = 0) ∧
      (body.presence_penalty = none → p = .fin 0) ∧
      (body.frequency_penalty = none → f = .fin 0) ∧
      (body.top_p = none → tp = .fin 0) ∧ (body.top_k = none → k = 0)) ∧
    ∃ c, ConfigOpt params modelConfig = some c ∧
      (∀ key, (c.lookup key).isSome = true ↔ key ∈ parameterNames) ∧
      (∃ e, PrepareChatRequest uuidBytes modelConfig requestID (decodeChatRequest body)
          (ConfigOpt params modelConfig) = .ok e ∧ e.Config = some c) ∧
      (body.temperature = none → c.lookup "temperature" = some (.float64 (.fin 0))) := by
  constructor
  · refine ⟨_, _, _, _, _, _, rfl, ?_, ?_, ?_, ?_, ?_, ?_⟩ <;>
      (intro h; simp [decodeChatRequest, h])
  · have hmemiff : ∀ e, e ∈ params ↔ e ∈ handleChatRequestGinParams (decodeChatRequest body) :=
      fun e => hperm.mem_iff
    have hnz : modelConfig.OptMax.isZero = false := by
      have hne : modelConfig.OptMax.MaxTokensMax ≠ 0 := by omega
      simp [OptMax.isZero, hne]
    have hcfg : ConfigOpt params modelConfig =
        some (params.foldl (configStep modelConfig) []) := by
      simp [ConfigOpt, hnz]
    refine ⟨_, hcfg, ?_, ?_, ?_⟩
    · intro key
      have h := foldl_configStep_lookup modelConfig params key []
      simp only [List.lookup, Option.isSome_none, Bool.false_eq_true, false_or] at h
      rw [h]
      constructor
      · rintro ⟨value, hmem, _⟩
        have h2 := (hmemiff _).mp hmem
        simp only [handleChatRequestGinParams, List.mem_cons, Prod.mk.injEq,
          List.mem_singleton, List.not_mem_nil, or_false] at h2
        simp only [parameterNames, List.mem_cons, List.mem_singleton, List.not_mem_nil,
          or_false]
        rcases h2 with h3 | h3 | h3 | h3 | h3 | h3
        · exact Or.inl h3.1
        · exact Or.inr (Or.inl h3.1)
        · exact Or.inr (Or.inr (Or.inl h3.1))
        · exact Or.inr (Or.inr (Or.inr (Or.inl h3.1)))
        · exact Or.inr (Or.inr (Or.inr (Or.inr (Or.inl h3.1))))
        · exact Or.inr (Or.inr (Or.inr (Or.inr (Or.inr h3.1))))
      · intro hkey
        simp only [parameterNames, List.mem_cons, List.mem_singleton, List.not_mem_nil,
          or_false] at hkey
        rcases hkey with h3 | h3 | h3 | h3 | h3 | h3
        · subst h3
          refine ⟨.float64 (decodeChatRequest body).Temperature, (hmemiff _).mpr ?_, ?_⟩
          · simp [handleChatRequestGinParams]
          · simp [clampedValue, hT]
        · subst h3
          refine ⟨.int (decodeChatRequest body).MaxTokens, (hmemiff _).mpr ?_, ?_⟩
          · simp [handleChatRequestGinParams]
          · simp [clampedValue, hM]
        · subst h3
          refine ⟨.float64 (decodeChatRequest body).PresencePenalty, (hmemiff _).mpr ?_, ?_⟩
          · simp [handleChatRequestGinParams]
          · simp [clampedValue, hP]
        · subst h3
          refine ⟨.float64 (decodeChatRequest body).FrequencyPenalty, (hmemiff _).mpr ?_, ?_⟩
          · simp [handleChatRequestGinParams]
          · simp [clampedValue, hF]
        · subst h3
          refine ⟨.float64 (decodeChatRequest body).TopP, (hmemiff _).mpr ?_, ?_⟩
          · simp [handleChatRequestGinParams]
          · simp [clampedValue, hTP]
        · subst h3
          refine ⟨.int (decodeChatRequest body).TopK, (hmemiff _).mpr ?_, ?_⟩
          · simp [handleChatRequestGinParams]
          · simp [clampedValue, hK]
    · refine ⟨_, rfl, ?_⟩
      simp [hcfg]
    · intro hnone
      have hnodup : (params.map Prod.fst).Nodup := by
        have hp := hperm.map Prod.fst
        rw [hp.nodup_iff]
        have hkeys : (handleChatRequestGinParams (decodeChatRequest body)).map Prod.fst =
            parameterNames := rfl
        rw [hkeys]
        decide
      have hmem : ("temperature", Dyn.float64 (.fin 0)) ∈ params := by
        rw [hmemiff]
        simp [handleChatRequestGinParams, decodeChatRequest, hnone]
      have hzero : mathMin (.fin 0) modelConfig.OptMax.TemperatureMax = .fin 0 := by
        cases hmax : modelConfig.OptMax.TemperatureMax with
        | nan => rw [hmax] at hT; simp [F64.gtZero, F64.lt] at hT
        | negInf => rw [hmax] at hT; simp [F64.gtZero, F64.lt] at hT
        | posInf => simp [mathMin, F64.lt]
        | fin q =>
          rw [hmax] at hT
          simp only [F64.gtZero, F64.lt, decide_eq_true_eq] at hT
          rw [mathMin_fin, min_eq_left (le_of_lt hT)]
      exact foldl_configStep_lookup_value modelConfig params hnodup "temperature"
        (.float64 (.fin 0)) (.float64 (.fin 0)) hmem (by simp [clampedValue, hT, hzero]) []

/-- C13 at a body for gpt-4o that sets only `max_tokens`: the config has
exactly the six keys and holds temperature = 0. -/
theorem handleChatRequestGin_params_witness :
    ∃ c, ConfigOpt (handleChatRequestGinParams (decodeChatRequest sampleBody)) gpt4o = some c ∧
      (∀ key, (c.lookup key).isSome = true ↔ key ∈ parameterNames) ∧
      c.lookup "temperature" = some (.float64 (.fin 0)) := by
  obtain ⟨_, c, hc, hkeys, _, htemp⟩ :=
    handleChatRequestGin_params sampleBody gpt4o
      (handleChatRequestGinParams (decodeChatRequest sampleBody)) (List.range 16) "request"
      (List.Perm.refl _) (by simp [gpt4o, F64.gtZero, F64.lt]) (by decide)
      (by simp [gpt4o, F64.gtZero, F64.lt]) (by simp [gpt4o, F64.gtZero, F64.lt])
      (by simp [gpt4o, F64.gtZero, F64.lt]) (by decide)
  exact ⟨c, hc, hkeys, htemp rfl⟩

/-! ## Theorems: chunk boundaries and characters -/

/-- Every chunk written by the stream is well-formed UTF-8. -/
theorem handleStreamResponseGin_chunks_valid (env : StreamEnv) (chatMessage : List Nat)
    (model : String) (frames : List Frame)
    (h : handleStreamResponseGin env chatMessage model = some frames) :
    ∀ c ∈ frameChunks frames, utf8Valid c = true := by
  obtain ⟨frames2, slices, hres, hch, _⟩ := handleStreamResponseGin_slices env chatMessage model
  rw [h] at hres
  simp only [Option.some.injEq] at hres
  subst hres
  intro c hc
  rw [hch] at hc
  obtain ⟨x, _, hx⟩ := List.mem_map.mp hc
  rw [← hx]
  exact jsonCoerce_valid x

/-- C14 fails as worded: no text and no draws make the stream write a chunk
that is not well-formed UTF-8, because `json.Marshal` writes U+FFFD for every
byte of a character that a chunk boundary splits. -/
theorem handleStreamResponseGin_invalid_chunk_counterexample :
    ¬ ∃ (text : String) (env : StreamEnv) (model : String) (frames : List Frame)
        (c : List Nat),
      utf8Valid (utf8Bytes text) = true ∧
      handleStreamResponseGin env (utf8Bytes text) model = some frames ∧
      c ∈ frameChunks frames ∧ utf8Valid c = false := by
  rintro ⟨text, env, model, frames, c, _, hres, hc, hbad⟩
  have hgood := handleStreamResponseGin_chunks_valid env (utf8Bytes text) model frames hres c hc
  rw [hgood] at hbad
  exact absurd hbad (by decide)

/-- C14 as amended: chunk boundaries are byte offsets, not character offsets:
there are a text whose bytes are well-formed UTF-8 and draws of the chunk size
for which a two-byte character is split across two consecutive byte slices,
neither of which is well-formed UTF-8; the chunks written are the marshalled
forms of these slices, in which each byte of the split character is U+FFFD, so
that they do not make up the text; and every chunk that the stream writes, for
every text and all draws, is well-formed UTF-8. -/
theorem handleStreamResponseGin_splits_character :
    (∃ (text : String) (env : StreamEnv) (c1 c2 pre : List Nat) (ch : Char) (b1 b2 : Nat),
      utf8Valid (utf8Bytes text) = true ∧
      utf8Bytes text = pre ++ utf8EncodeChar ch ∧
      utf8EncodeChar ch = [b1, b2] ∧
      c1 = pre ++ [b1] ∧ c2 = [b2] ∧
      utf8Valid c1 = false ∧ utf8Valid c2 = false ∧
      (handleStreamResponseGin env (utf8Bytes text) "gpt-4o").map frameChunks =
        some [jsonCoerce c1, jsonCoerce c2] ∧
      jsonCoerce c1 = pre ++ [0xEF, 0xBF, 0xBD] ∧ jsonCoerce c2 = [0xEF, 0xBF, 0xBD] ∧
      jsonCoerce c1 ++ jsonCoerce c2 ≠ utf8Bytes text) ∧
    (∀ (env : StreamEnv) (chatMessage : List Nat) (model : String) (frames : List Frame),
      handleStreamResponseGin env chatMessage model = some frames →
        ∀ c ∈ frameChunks frames, utf8Valid c = true) := by
  constructor
  · refine ⟨"aaaaaaaaaaaaaaé", size15Env, List.replicate 14 97 ++ [195], [169],
      List.replicate 14 97, Char.ofNat 233, 195, 169, ?_, ?_, ?_, ?_, ?_, ?_, ?_, ?_, ?_, ?_,
      ?_⟩ <;> decide
  · exact handleStreamResponseGin_chunks_valid

end E2B
